import Mathlib

/-!
# Verification of the MIPS32 static stack analyzer

A shallow embedding of `src/staticStackAnalyzer.c` (a single-file C program
that parses a disassembly listing, builds a call graph of function records,
and computes per-function worst-case stack depth), together with proofs of
the behavioural claims made by the specification.

Modelling conventions:
* The linked list of `functionInfo_t` records (global `firstFunctionInfo`)
  is a `List FnInfo`; a pointer to a node is the node's index in that list.
* C `uint32_t` values are `Nat` reduced `% 2 ^ 32` at the operations where
  the C arithmetic can wrap (`deepest += ownStack`, `ownStack -= movement`).
* Text lines are `List Char`; `strstr`/`strchr`/`strrchr`/`strtoul`/`strtol`
  are modelled by the explicit functions below.
* Undefined behaviour (out-of-bounds writes into the fixed 1000/10000-entry
  buffers, dereferencing `strchr(...) + 1` when `strchr` returned NULL,
  `memcpy` with a negative length) is modelled by returning `none`.
* The `printf` diagnostic of `getDeepestStackUsage` is modelled by an
  explicit log of (function name, target address) pairs.
-/

set_option linter.unusedVariables false

/-- Upper bound of `uint32_t` arithmetic: `2 ^ 32`. -/
def M32 : Nat := 2 ^ 32

/-- Value of `ULONG_MAX` on the program's target platform (32-bit `long`,
the program shells out to a Windows xc32 toolchain); `strtoul` saturates
to this value on overflow. -/
def ulongMax : Nat := M32 - 1

/-! ## C string primitives (over `List Char`) -/

/-- The whitespace test `isspace` applies while `strtoul`/`strtol` skip
leading whitespace. -/
def isSpaceChar (c : Char) : Bool :=
  c == ' ' || c == '\t' || c == '\n' || c == '\r' || c == '\x0b' || c == '\x0c'

/-- Hex digit value, `none` for a non-digit (where `strtoul` base 16 stops). -/
def hexDigitVal (c : Char) : Option Nat :=
  if '0' ≤ c ∧ c ≤ '9' then some (c.toNat - '0'.toNat)
  else if 'a' ≤ c ∧ c ≤ 'f' then some (c.toNat - 'a'.toNat + 10)
  else if 'A' ≤ c ∧ c ≤ 'F' then some (c.toNat - 'A'.toNat + 10)
  else none

/-- Decimal digit value, `none` for a non-digit. -/
def decDigitVal (c : Char) : Option Nat :=
  if '0' ≤ c ∧ c ≤ '9' then some (c.toNat - '0'.toNat) else none

/-- Accumulate hex digits, saturating at `ulongMax` the way `strtoul`
clamps an out-of-range value. -/
def parseHexDigits : List Char → Nat → Nat
  | [], acc => acc
  | c :: cs, acc =>
    match hexDigitVal c with
    | some d => parseHexDigits cs (min ulongMax (acc * 16 + d))
    | none => acc

/-- Accumulate decimal digits, saturating at `ulongMax`. -/
def parseDecDigits : List Char → Nat → Nat
  | [], acc => acc
  | c :: cs, acc =>
    match decDigitVal c with
    | some d => parseDecDigits cs (min ulongMax (acc * 10 + d))
    | none => acc

/-- Model of `strtoul(l, NULL, 16)`: skip whitespace, optional sign,
optional `0x`/`0X` prefix (consumed only when followed by a hex digit),
hex digits saturating at `ULONG_MAX`; a leading `-` negates modulo
`2 ^ 32` as the C standard specifies for `strtoul`. -/
def strtoul16 (l : List Char) : Nat :=
  let l1 := l.dropWhile isSpaceChar
  let (neg, l2) : Bool × List Char :=
    match l1 with
    | '-' :: r => (true, r)
    | '+' :: r => (false, r)
    | _ => (false, l1)
  let l3 :=
    match l2 with
    | '0' :: 'x' :: c :: r => if (hexDigitVal c).isSome then c :: r else l2
    | '0' :: 'X' :: c :: r => if (hexDigitVal c).isSome then c :: r else l2
    | _ => l2
  let v := parseHexDigits l3 0
  if neg then (M32 - v % M32) % M32 else v

/-- Model of `strtol(l, NULL, 10)`: skip whitespace, optional sign, decimal
digits; the result is clamped to the 32-bit `long` range as `strtol`
saturates at `LONG_MIN`/`LONG_MAX`. -/
def strtol10 (l : List Char) : Int :=
  let l1 := l.dropWhile isSpaceChar
  let (neg, l2) : Bool × List Char :=
    match l1 with
    | '-' :: r => (true, r)
    | '+' :: r => (false, r)
    | _ => (false, l1)
  let v := parseDecDigits l2 0
  if neg then max (-(2 ^ 31 : Int)) (-(v : Int)) else min ((2 ^ 31 : Int) - 1) (v : Int)

/-- Is `pat` a prefix of `l`?  Models `strncmp(l, pat, strlen(pat)) == 0`. -/
def isPrefixList : List Char → List Char → Bool
  | [], _ => true
  | _ :: _, [] => false
  | a :: as, b :: bs => a == b && isPrefixList as bs

/-- Index of the first occurrence of substring `pat` in `l`
(`strstr`, as an index rather than a pointer). -/
def firstInfixIdx (pat : List Char) : List Char → Option Nat
  | [] => if isPrefixList pat [] then some 0 else none
  | l@(_ :: rest) =>
    if isPrefixList pat l then some 0
    else (firstInfixIdx pat rest).map (· + 1)

/-- Does `l` contain substring `pat`?  Models `strstr(l, pat) != NULL`. -/
def containsSub (pat l : List Char) : Bool := (firstInfixIdx pat l).isSome

/-- The suffix of `l` after the first occurrence of `pat`
(`strstr(l, pat) + strlen(pat)`); `[]` when `pat` does not occur. -/
def afterFirstInfix (pat l : List Char) : List Char :=
  match firstInfixIdx pat l with
  | some k => l.drop (k + pat.length)
  | none => []

/-- Index of the first occurrence of character `c` (`strchr`). -/
def firstIdxOf (c : Char) : List Char → Option Nat
  | [] => none
  | x :: xs => if x == c then some 0 else (firstIdxOf c xs).map (· + 1)

/-- Index of the last occurrence of character `c` (`strrchr`). -/
def lastIdxOf (c : Char) (l : List Char) : Option Nat :=
  (firstIdxOf c l.reverse).map (fun k => l.length - 1 - k)

/-! ## The data model: `functionInfo_t` -/

/-- One `functionInfo_t` record (`src/staticStackAnalyzer.c:38-50`).
`end` is a Lean keyword, so the field is called `fend`.  The `jumpsTo`
array together with `numJumpsTo` is a `List Nat`; the 10000-entry
allocation cap of `createNewFunctionInfo` is enforced where the C writes
into the array (`recordJump`). -/
structure FnInfo where
  name : List Char
  start : Nat
  fend : Nat
  ownStack : Nat
  deepest : Nat
  jumpsTo : List Nat
  usesFunctionPointers : Bool
  isProcessed : Bool
deriving Repr, DecidableEq

/-- The string constants of the C source. -/
def sectionString : List Char := ("Disassembly of section ").toList

/-- Pattern recognizing the `.text` section header. -/
def textSectionString : List Char := ("Disassembly of section .text").toList

/-- Pattern ending a label line. -/
def labelEndString : List Char := (">:").toList

/-- Pattern of a stack pointer manipulation instruction. -/
def stackPointerString : List Char := (" \taddiu\tsp,sp,").toList

/-- Pattern of a jump to the return address. -/
def jrRaString : List Char := (" \tjr\tra").toList

/-- Pattern of a register-indirect call. -/
def jalrString : List Char := (" \tjalr\t").toList

/-- Pattern of a register-indirect jump. -/
def jrString : List Char := (" \tjr\t").toList

/-- Branch mnemonic pattern. -/
def bPattern : List Char := (" \tb").toList

/-- Jump mnemonic pattern. -/
def jPattern : List Char := (" \tj").toList

/-- `createNewFunctionInfo` (`src/staticStackAnalyzer.c:145-170`): parse the
leading hex address, locate the first `<` and the first `>`, and build a
fresh record whose name is the text strictly between them.  The inner
layer is the returned pointer: `some none` models the C function's
explicit `return 0` when either bracket is missing.  When both brackets
are present but the first `>` precedes the first `<`, the C instead
computes `malloc((nameEnd-name)*sizeof(char))` with a negative difference
and `memcpy`s a huge length through the result, which is undefined
behaviour (a crash, not a clean null return), modelled as the outer
`none`. -/
def createNewFunctionInfo (label : List Char) : Option (Option FnInfo) :=
  let address := strtoul16 label
  match firstIdxOf '<' label, firstIdxOf '>' label with
  | some p, some q =>
    if p < q then
      some (some
        { name := (label.drop (p + 1)).take (q - p - 1)
          start := address
          fend := address
          ownStack := 0
          deepest := 0
          jumpsTo := []
          usesFunctionPointers := false
          isProcessed := false })
    else none
  | _, _ => some none

/-- `cleanupFunctionInfo` (`src/staticStackAnalyzer.c:116-136`): keep only
jump targets strictly outside the record's inclusive `[start, fend]` range,
preserving order.  The C routine copies the kept targets into a fixed
`uint32_t jumpsTo[1000]` scratch buffer with no bounds check; when a
1001st target is kept it writes past the end of that buffer, which is
undefined behaviour, modelled as `none`. -/
def cleanupFunctionInfo (f : FnInfo) : Option FnInfo :=
  let kept := f.jumpsTo.filter (fun t => t > f.fend || t < f.start)
  if kept.length ≤ 1000 then some { f with jumpsTo := kept } else none

/-- The write `jumpsTo[numJumpsTo++] = target` in `main`
(`src/staticStackAnalyzer.c:477-478`): the buffer allocated by
`createNewFunctionInfo` holds 10000 entries, so the write with
`numJumpsTo = 10000` is out of bounds, modelled as `none`. -/
def recordJump (f : FnInfo) (target : Nat) : Option FnInfo :=
  if f.jumpsTo.length < 10000 then some { f with jumpsTo := f.jumpsTo ++ [target] } else none

/-! ## Range lookup -/

/-- Walk of the linked list in `findFunctionByAddress`
(`src/staticStackAnalyzer.c:180-192`), returning the index of the first
record whose inclusive range contains the address. -/
def findFnAux : List FnInfo → Nat → Nat → Option Nat
  | [], _, _ => none
  | f :: rest, a, k =>
    if f.start ≤ a ∧ a ≤ f.fend then some k else findFnAux rest a (k + 1)

/-- `findFunctionByAddress` (`src/staticStackAnalyzer.c:180-192`); the
returned pointer is modelled as an index into the record list. -/
def findFunctionByAddress (s : List FnInfo) (a : Nat) : Option Nat :=
  findFnAux s a 0

/-! ## The depth resolver -/

/-- One diagnostic line printed by `getDeepestStackUsage` on an unresolved
jump target: the calling function's name and the target address. -/
abbrev Diag := List Char × Nat

/-- The `for` loop over `target->jumpsTo` inside `getDeepestStackUsage`
(`src/staticStackAnalyzer.c:209-222`), abstracted over the recursive call
`r` (instantiated with `resolve` at one unit less fuel): resolve each
target address; on a failed lookup print a diagnostic and `continue`;
otherwise recurse and fold the maximum into `target->deepest`. -/
def resolveEdgesWith (r : List FnInfo → Nat → Option (List FnInfo × List Diag × Nat)) :
    List FnInfo → Nat → List Nat → Option (List FnInfo × List Diag)
  | s, _, [] => some (s, [])
  | s, i, a :: rest =>
    match findFunctionByAddress s a with
    | none =>
      match s.get? i with
      | none => none
      | some f =>
        (resolveEdgesWith r s i rest).map (fun x => (x.1, (f.name, a) :: x.2))
    | some j =>
      match r s j with
      | none => none
      | some (s1, log1, v) =>
        match s1.get? i with
        | none => none
        | some f =>
          let s2 := if f.deepest < v then s1.set i { f with deepest := v } else s1
          (resolveEdgesWith r s2 i rest).map (fun x => (x.1, log1 ++ x.2))

/-- `getDeepestStackUsage` (`src/staticStackAnalyzer.c:203-227`) on the
record at index `i`.  The C function recurses on the call graph guarded by
the `isProcessed` flag; the embedding carries explicit fuel (the flag
guarantees, and the termination theorem below proves, that
`number of unprocessed records + 1` units suffice).  Returns the updated
record list, the diagnostics printed, and the returned `uint32_t`.
`none` means the fuel ran out or an invalid index was dereferenced. -/
def resolve : Nat → List FnInfo → Nat → Option (List FnInfo × List Diag × Nat)
  | 0, _, _ => none
  | fuel + 1, s, i =>
    match s.get? i with
    | none => none
    | some f =>
      if f.isProcessed then some (s, [], f.deepest)
      else
        match resolveEdgesWith (fun s' j => resolve fuel s' j)
            (s.set i { f with isProcessed := true }) i f.jumpsTo with
        | none => none
        | some (s2, log) =>
          match s2.get? i with
          | none => none
          | some f2 =>
            some (s2.set i { f2 with deepest := (f2.deepest + f2.ownStack) % M32 },
              log, (f2.deepest + f2.ownStack) % M32)

/-- The edge loop of `resolve` at a given fuel level. -/
def resolveEdges (fuel : Nat) : List FnInfo → Nat → List Nat → Option (List FnInfo × List Diag) :=
  resolveEdgesWith (fun s' j => resolve fuel s' j)

/-- The resolution pass of `main` (`src/staticStackAnalyzer.c:486-491`):
call `getDeepestStackUsage` on every record of the list in order,
accumulating the diagnostics. -/
def resolvePassGo : List Nat → List FnInfo → List Diag → Option (List FnInfo × List Diag)
  | [], s, log => some (s, log)
  | i :: is, s, log =>
    match resolve (s.length + 1) s i with
    | none => none
    | some (s', d, _) => resolvePassGo is s' (log ++ d)

/-- The full resolution pass over a record list. -/
def resolvePass (s : List FnInfo) : Option (List FnInfo × List Diag) :=
  resolvePassGo (List.range s.length) s []

/-! ## Ranking -/

/-- One bubble pass of `n` adjacent comparisons (`sortForDeepest`'s and
`sortForOwn`'s inner loop, `src/staticStackAnalyzer.c:243-265` and
`283-305`): walking left to right over the first `n` adjacent pairs, swap
whenever the left element's key is strictly smaller. -/
def sortPass (key : FnInfo → Nat) : Nat → List FnInfo → List FnInfo
  | n + 1, a :: b :: rest =>
    if key a < key b then b :: sortPass key n (a :: rest)
    else a :: sortPass key n (b :: rest)
  | _, l => l

/-- The outer loop `for (i = count-1; i > 0; i--)` of the two sort
routines: pass `i` comparisons, then repeat with `i - 1`. -/
def sortLoop (key : FnInfo → Nat) : Nat → List FnInfo → List FnInfo
  | 0, l => l
  | i + 1, l => sortLoop key i (sortPass key (i + 1) l)

/-- `sortForDeepest` (`src/staticStackAnalyzer.c:233-267`).  For an empty
list the C routine computes `count - 1 = 0xFFFFFFFF` in `uint32_t`
arithmetic, enters the loop and dereferences the NULL `firstFunctionInfo`,
which is undefined behaviour, modelled as `none`. -/
def sortForDeepest (l : List FnInfo) : Option (List FnInfo) :=
  match l with
  | [] => none
  | _ :: _ => some (sortLoop (fun f => f.deepest) (l.length - 1) l)

/-- `sortForOwn` (`src/staticStackAnalyzer.c:273-307`); same shape and same
empty-list undefined behaviour as `sortForDeepest`. -/
def sortForOwn (l : List FnInfo) : Option (List FnInfo) :=
  match l with
  | [] => none
  | _ :: _ => some (sortLoop (fun f => f.ownStack) (l.length - 1) l)

/-! ## The parse loop of `main` -/

/-- `findNextTextSection` (`src/staticStackAnalyzer.c:93-106`): read lines
until one starts with `textSectionString` (a `strncmp` prefix test), then
read and drop one more line; returns the remaining stream and the EOF
flag. -/
def findNextTextSectionGo : List (List Char) → List (List Char) × Bool
  | [] => ([], true)
  | a :: r =>
    if isPrefixList textSectionString a then
      match r with
      | [] => ([], true)
      | _ :: r2 => (r2, false)
    else findNextTextSectionGo r

/-- One `fgets` on a line stream: at end of stream the C call fails
leaving the buffer without a new line (modelled as `[]`) and the stream's
EOF flag becomes set. -/
def fgetsLine : List (List Char) → Bool → List Char × List (List Char) × Bool
  | [], _ => ([], [], true)
  | a :: r, e => (a, r, e)

/-- The text following `strrchr(line, ',')`, or failing that
`strrchr(line, '\t')` (`src/staticStackAnalyzer.c:472-476`): the operand
field from which a branch target is parsed.  `none` models the
`strtoul(NULL + 1, ...)` call made when both lookups fail. -/
def branchTargetTail (line : List Char) : Option (List Char) :=
  match lastIdxOf ',' line with
  | some k => some (line.drop (k + 1))
  | none => (lastIdxOf '\t' line).map (fun k => line.drop (k + 1))

/-- The per-instruction tail of `main`'s loop body
(`src/staticStackAnalyzer.c:432-480`), reached for a line that is neither a
section header nor a non-internal label: extend the end address, then
either accumulate a stack-pointer decrement, or classify a branch/jump.
`none` models the out-of-bounds `jumpsTo` write and the
`strtoul(strrchr(..)+1, ..)` call when both `strrchr` lookups fail. -/
def parseInstr (line : List Char) (f : FnInfo) : Option FnInfo :=
  let address := strtoul16 line
  let f1 := if address > f.fend then { f with fend := address } else f
  if containsSub stackPointerString line then
    let movement := strtol10 (afterFirstInfix stackPointerString line)
    if movement < 0 then
      some { f1 with ownStack := (f1.ownStack + movement.natAbs) % M32 }
    else some f1
  else if containsSub bPattern line || containsSub jPattern line then
    if containsSub jrRaString line then some f1
    else if containsSub jalrString line then some { f1 with usesFunctionPointers := true }
    else if containsSub jrString line then some f1
    else
      match branchTargetTail line with
      | none => none
      | some tl => recordJump f1 (strtoul16 tl)
  else some f1

/-- One iteration of `main`'s parse loop body
(`src/staticStackAnalyzer.c:398-480`) on the line just read: section
boundary (close the record, optionally skip to the next `.text` section,
open a record on the following line), non-internal label (close and open on
this line), or instruction.  Returns the closed records, the new current
record (`none` exactly when `createNewFunctionInfo` cleanly returned the
null pointer), the remaining stream and the EOF flag; the outer `none`
models undefined behaviour (`strchr(line,'<') + 1` with a NULL `strchr`,
a buffer overflow, or the reversed-bracket label `malloc`). -/
def parseStep (line : List Char) (rest : List (List Char)) (eof : Bool)
    (closed : List FnInfo) (f : FnInfo) :
    Option (List FnInfo × Option FnInfo × List (List Char) × Bool) :=
  if containsSub sectionString line then
    match cleanupFunctionInfo f with
    | none => none
    | some fc =>
      let (rest1, eof1) :=
        if containsSub textSectionString line then (rest, eof)
        else findNextTextSectionGo rest
      let (lab, rest2, eof2) := fgetsLine rest1 eof1
      (createNewFunctionInfo lab).map (fun cur => (closed ++ [fc], cur, rest2, eof2))
  else if containsSub labelEndString line then
    match firstIdxOf '<' line with
    | none => none
    | some p =>
      if (line.drop (p + 1)).headD (Char.ofNat 0) != '.' then
        match cleanupFunctionInfo f with
        | none => none
        | some fc =>
          (createNewFunctionInfo line).map (fun cur => (closed ++ [fc], cur, rest, eof))
      else (parseInstr line f).map (fun f' => (closed, some f', rest, eof))
  else (parseInstr line f).map (fun f' => (closed, some f', rest, eof))

/-- Outcome of the parse phase of `main`:  `crashed` models undefined
behaviour, `fatalError` the `printf("something went wrong...")` /
`return -1` branch (`src/staticStackAnalyzer.c:392-396`), `finished`
normal loop exit at end of stream with the accumulated record list. -/
inductive ParseResult where
  | crashed : ParseResult
  | fatalError : ParseResult
  | finished : List FnInfo → ParseResult
deriving Repr, DecidableEq

/-- The `while (feof(..) == 0)` loop of `main`
(`src/staticStackAnalyzer.c:390-482`), with explicit fuel: check EOF, check
the fatal NULL-record condition, read a line, run `parseStep`. -/
def parseIter : Nat → List (List Char) → Bool → List FnInfo → Option FnInfo →
    Option ParseResult
  | 0, _, _, _, _ => none
  | fuel + 1, input, eof, closed, cur =>
    if eof then some (.finished (closed ++ cur.toList))
    else
      match cur with
      | none => some .fatalError
      | some f =>
        let (line, rest, eof') := fgetsLine input eof
        match parseStep line rest eof' closed f with
        | none => some .crashed
        | some (closed', cur', rest', eof'') => parseIter fuel rest' eof'' closed' cur'

/-- The parse phase of `main` (`src/staticStackAnalyzer.c:379-482`): skip
to the first `.text` section, read the first label, create the first
record (`crashed` when that label parse hits the reversed-bracket
undefined behaviour), then run the loop. -/
def runParse (input : List (List Char)) : Option ParseResult :=
  let (r1, e1) := findNextTextSectionGo input
  let (l0, r2, e2) := fgetsLine r1 e1
  match createNewFunctionInfo l0 with
  | none => some ParseResult.crashed
  | some cur => parseIter (r2.length + 2) r2 e2 [] cur

/-! ## Accessors and invariant vocabulary for the resolver proofs -/

/-- The `isProcessed` flag of the record at index `j` (`false` out of range). -/
def pAt (s : List FnInfo) (j : Nat) : Bool := ((s.get? j).map FnInfo.isProcessed).getD false

/-- The `deepest` field of the record at index `j` (`0` out of range). -/
def dAt (s : List FnInfo) (j : Nat) : Nat := ((s.get? j).map FnInfo.deepest).getD 0

/-- The `ownStack` field of the record at index `j` (`0` out of range). -/
def ownAt (s : List FnInfo) (j : Nat) : Nat := ((s.get? j).map FnInfo.ownStack).getD 0

/-- The `jumpsTo` list of the record at index `j` (`[]` out of range). -/
def jumpsAt (s : List FnInfo) (j : Nat) : List Nat := ((s.get? j).map FnInfo.jumpsTo).getD []

/-- The fields of a record that `getDeepestStackUsage` never mutates. -/
def skel (f : FnInfo) : List Char × Nat × Nat × Nat × List Nat × Bool :=
  (f.name, f.start, f.fend, f.ownStack, f.jumpsTo, f.usesFunctionPointers)

/-- Pointwise immutable-field view of the record list. -/
def skelAt (s : List FnInfo) (j : Nat) : Option (List Char × Nat × Nat × Nat × List Nat × Bool) :=
  (s.get? j).map skel

/-- Number of records still unprocessed (the resolver's recursion measure). -/
def U (s : List FnInfo) : Nat :=
  ((List.range s.length).filter (fun j => !pAt s j)).length

/-- Everything `getDeepestStackUsage` guarantees about a completed call on
index `i`: lengths and immutable fields preserved, records that were
already processed untouched, records that remain unprocessed untouched,
processed flags only ever raised, and on return index `i` is processed and
holds the returned value in `deepest`. -/
def BasicR (s s' : List FnInfo) (i : Nat) (v : Nat) : Prop :=
  s'.length = s.length ∧
  (∀ j, skelAt s' j = skelAt s j) ∧
  (∀ j, pAt s j = true → s'.get? j = s.get? j) ∧
  (∀ j, pAt s j = true → pAt s' j = true) ∧
  (∀ j, pAt s' j = false → s'.get? j = s.get? j) ∧
  pAt s' i = true ∧ dAt s' i = v

/-- Everything one pass of the edge loop guarantees: as `BasicR`, except
that the in-progress record `i` itself is mutated — its `deepest`
accumulator only ever grows. -/
def BasicE (s s' : List FnInfo) (i : Nat) : Prop :=
  s'.length = s.length ∧
  (∀ j, skelAt s' j = skelAt s j) ∧
  (∀ j, j ≠ i → pAt s j = true → s'.get? j = s.get? j) ∧
  (∀ j, pAt s j = true → pAt s' j = true) ∧
  (∀ j, j ≠ i → pAt s' j = false → s'.get? j = s.get? j) ∧
  (pAt s i = true → pAt s' i = true ∧ dAt s i ≤ dAt s' i)

/-- What the resolution pass of `main` guarantees about the record list as
a whole: lengths and immutable fields preserved, processed records
untouched, never-processed records untouched, flags only raised. -/
def BasicP (s s' : List FnInfo) : Prop :=
  s'.length = s.length ∧
  (∀ j, skelAt s' j = skelAt s j) ∧
  (∀ j, pAt s j = true → s'.get? j = s.get? j) ∧
  (∀ j, pAt s j = true → pAt s' j = true) ∧
  (∀ j, pAt s' j = false → s'.get? j = s.get? j)

/-- Sum of `ownStack` over a finite set of indices. -/
def pSum (s : List FnInfo) (P : Finset Nat) : Nat := ∑ j in P, ownAt s j

/-- Sum of `ownStack` over the processed records. -/
def mSum (s : List FnInfo) : Nat :=
  ∑ j in Finset.range s.length, if pAt s j then ownAt s j else 0

/-- Sum of `ownStack` over all records. -/
def totOwn (s : List FnInfo) : Nat := ∑ j in Finset.range s.length, ownAt s j

/-- The resolver's arithmetic safety invariant relative to a set `P` of
in-progress records: every `deepest` accumulator, plus the own-stack bytes
of the whole in-progress chain, is bounded by the own-stack bytes of the
records processed so far.  It keeps every `deepest += ownStack` below
`2 ^ 32` whenever `totOwn < 2 ^ 32`. -/
def PsiInv (s : List FnInfo) (P : Finset Nat) : Prop :=
  ∀ j, dAt s j + pSum s P ≤ mSum s

/-- Records that are processed and not in progress have completed their
`deepest += ownStack` update. -/
def ThetaInv (s : List FnInfo) (P : Finset Nat) : Prop :=
  ∀ j, j ∉ P → pAt s j = true → ownAt s j ≤ dAt s j

/-- The contribution of one call edge in a given state: `deepest` of the
target record, `0` for an unresolved target. -/
def contribAt (s : List FnInfo) (a : Nat) : Nat :=
  match findFunctionByAddress s a with
  | some k => dAt s k
  | none => 0

/-- The maximum resolved contribution over a record's call edges in a
given state, folded with `max` exactly as the resolver's loop
accumulates. -/
def maxContrib (s : List FnInfo) (j : Nat) : Nat :=
  ((jumpsAt s j).map (contribAt s)).foldl Nat.max 0

/-- Records that are resolved (processed and not in the in-progress set
`P`) satisfy the worst-case fixpoint equation of the claim. -/
def GoodInv (s : List FnInfo) (P : Finset Nat) : Prop :=
  ∀ j, j < s.length → pAt s j = true → j ∉ P →
    dAt s j = ownAt s j + maxContrib s j

/-- All resolvable call targets of a resolved record are themselves
resolved (so their memoized values can no longer change). -/
def GoodClosed (s : List FnInfo) (P : Finset Nat) : Prop :=
  ∀ j, j < s.length → pAt s j = true → j ∉ P →
    ∀ a ∈ jumpsAt s j, ∀ k, findFunctionByAddress s a = some k →
      pAt s k = true ∧ k ∉ P

/-- Unprocessed records still hold the builder's initial `deepest = 0`. -/
def UnmZero (s : List FnInfo) : Prop := ∀ j, pAt s j = false → dAt s j = 0

/-- Acyclicity of the resolved call graph, witnessed by a rank function
that strictly decreases along every resolvable call edge. -/
def RankHyp (s : List FnInfo) (rank : Nat → Nat) : Prop :=
  ∀ j, j < s.length → ∀ a ∈ jumpsAt s j, ∀ k, findFunctionByAddress s a = some k →
    rank k < rank j

/-- Every call edge of every record resolves to some record. -/
def AllResolve (s : List FnInfo) : Prop :=
  ∀ j, j < s.length → ∀ a ∈ jumpsAt s j, (findFunctionByAddress s a).isSome

/-! ## Concrete scenarios from the specification -/

/-- Record for the mutual-recursion scenario: function `A`, range
`[0, 10]`, own frame 16 bytes, one call edge to address `20` (inside
`B`). -/
def mutualA : FnInfo := ⟨("A").toList, 0, 10, 16, 0, [20], false, false⟩

/-- Record for the mutual-recursion scenario: function `B`, range
`[20, 30]`, own frame 16 bytes, one call edge to address `0` (inside
`A`). -/
def mutualB : FnInfo := ⟨("B").toList, 20, 30, 16, 0, [0], false, false⟩

/-- Record for the acyclic scenario: function `A`, frame 16, calling
address `20` (inside `B`). -/
def acyclicA : FnInfo := ⟨("A").toList, 0, 10, 16, 0, [20], false, false⟩

/-- Record for the acyclic scenario: function `B`, frame 8, no calls. -/
def acyclicB : FnInfo := ⟨("B").toList, 20, 30, 8, 0, [], false, false⟩

/-- 1001 call-edge targets, all at addresses `1000` and above. -/
def capViolationJumps : List Nat := (List.range 1001).map (fun k => 1000 + k)

/-- A record with 1001 recorded call edges, every one outside its own
address range `[0, 0]`: closing it makes `cleanupFunctionInfo` keep all
1001, one more than its 1000-entry scratch buffer holds. -/
def capViolationRec : FnInfo :=
  ⟨("f").toList, 0, 0, 0, 0, capViolationJumps, false, false⟩

/-- 10000 call-edge targets filling the allocated `jumpsTo` buffer. -/
def fullEdgesJumps : List Nat := List.replicate 10000 0

/-- A record whose 10000-entry `jumpsTo` buffer is already full, so the
next recorded branch in `main` writes out of bounds. -/
def fullEdgesRec : FnInfo :=
  ⟨("g").toList, 0, 0, 0, 0, fullEdgesJumps, false, false⟩

/-- 1001 call-edge targets, all at addresses `2000` and above. -/
def c6Jumps : List Nat := (List.range 1001).map (fun k => 2000 + k)

/-- A record with 1001 out-of-range edges used to exhibit that closing a
record is not the pure filter the specification describes once the scratch
capacity is exceeded. -/
def c6Rec : FnInfo :=
  ⟨("h").toList, 0, 0, 0, 0, c6Jumps, false, false⟩

/-- Single-record list whose one call edge targets address 99, outside
every record's range: the resolver must log it and continue. -/
def diagRec : FnInfo := ⟨("D").toList, 0, 10, 4, 0, [99], false, false⟩

/-- Overflow scenario for C5: own frame `2 ^ 32 - 1` bytes and one call
into `c5OvB`, so the final `deepest += ownStack` wraps. -/
def c5OvA : FnInfo := ⟨("f").toList, 0, 0, M32 - 1, 0, [1], false, false⟩

/-- Overflow scenario for C5: the callee with own frame 2. -/
def c5OvB : FnInfo := ⟨("g").toList, 1, 1, 2, 0, [], false, false⟩

/-- Overflow scenario for C10: function `A` with own frame `2 ^ 32 - 3`
and a call into `B`. -/
def c10A : FnInfo := ⟨("A").toList, 0, 10, M32 - 3, 0, [20], false, false⟩

/-- Overflow scenario for C10: function `B` with own frame 3 and a call
back into `A`. -/
def c10B : FnInfo := ⟨("B").toList, 20, 30, 3, 0, [0], false, false⟩

/-- Overflow scenario for C2: an acyclic caller `p` with own frame
`2 ^ 32 - 1` and one call into `q`. -/
def c2OvA : FnInfo := ⟨("p").toList, 0, 10, M32 - 1, 0, [20], false, false⟩

/-- Overflow scenario for C2: the leaf callee `q` with own frame 2. -/
def c2OvB : FnInfo := ⟨("q").toList, 20, 30, 2, 0, [], false, false⟩

/-- The mid-resolution state of the `c10A`/`c10B` cycle: `A` is marked
in-progress with partial `deepest = 0`, exactly as when `B`'s edge back
into `A` is resolved. -/
def c10Mid : List FnInfo :=
  [⟨("A").toList, 0, 10, M32 - 3, 0, [20], false, true⟩, c10B]

/-- A line that superficially looks like a branch (` \tb`) whose operand
text `zzz` is not a hex literal. -/
def c9Line : List Char := (" \tb\tzzz").toList

/-- An open function record scanning `c9Line`. -/
def c9Rec : FnInfo := ⟨("f").toList, 0, 100, 0, 0, [], false, false⟩

/-- A well-formed label line used as the C8 witness. -/
def c8Label : List Char := ("9d0 <ab>:").toList

/-- A malformed label whose first `>` (index 4) precedes its first `<`
(index 7): the reversed-bracket case of `createNewFunctionInfo`. -/
def c8BadLabel : List Char := ("9d0 >ab<:").toList

/-- Four records with tied keys exercising sort stability:
`deepest` keys `1, 3, 2, 3` and `ownStack` keys `5, 7, 5, 9`. -/
def c4List : List FnInfo :=
  [⟨("a").toList, 0, 0, 5, 1, [], false, false⟩,
   ⟨("b").toList, 0, 0, 7, 3, [], false, false⟩,
   ⟨("c").toList, 0, 0, 5, 2, [], false, false⟩,
   ⟨("d").toList, 0, 0, 9, 3, [], false, false⟩]

/-! ## List helper lemmas -/

theorem get?_set_self (s : List FnInfo) (i : Nat) (f : FnInfo) (h : i < s.length) :
    (s.set i f).get? i = some f :=
  List.get?_set_eq_of_lt f h

theorem get?_set_ne' (s : List FnInfo) (i j : Nat) (f : FnInfo) (h : j ≠ i) :
    (s.set i f).get? j = s.get? j :=
  List.get?_set_ne f s (fun e => h e.symm)

theorem ownAt_eq_skel (s : List FnInfo) (j : Nat) :
    ownAt s j = ((skelAt s j).map (fun x => x.2.2.2.1)).getD 0 := by
  unfold ownAt skelAt
  cases s.get? j <;> simp [skel]

theorem ownAt_of_skelAt (s s' : List FnInfo) (j : Nat)
    (h : skelAt s' j = skelAt s j) : ownAt s' j = ownAt s j := by
  rw [ownAt_eq_skel, ownAt_eq_skel, h]

theorem jumpsAt_eq_skel (s : List FnInfo) (j : Nat) :
    jumpsAt s j = ((skelAt s j).map (fun x => x.2.2.2.2.1)).getD [] := by
  unfold jumpsAt skelAt
  cases s.get? j <;> simp [skel]

theorem jumpsAt_of_skelAt (s s' : List FnInfo) (j : Nat)
    (h : skelAt s' j = skelAt s j) : jumpsAt s' j = jumpsAt s j := by
  rw [jumpsAt_eq_skel, jumpsAt_eq_skel, h]

theorem mapSkel_of_skelAt (s s' : List FnInfo) (hlen : s'.length = s.length)
    (h : ∀ j, skelAt s' j = skelAt s j) : s'.map skel = s.map skel := by
  apply List.ext
  intro n
  rw [List.get?_map, List.get?_map]
  exact h n

theorem findFnAux_congr (s s' : List FnInfo) (h : s'.map skel = s.map skel) :
    ∀ a k, findFnAux s' a k = findFnAux s a k := by
  induction s generalizing s' with
  | nil =>
    cases s' with
    | nil => intro a k; rfl
    | cons x xs => simp at h
  | cons f fs ih =>
    cases s' with
    | nil => simp at h
    | cons g gs =>
      simp only [List.map_cons, List.cons.injEq] at h
      intro a k
      have hse : g.start = f.start ∧ g.fend = f.fend := by
        constructor
        · exact congrArg (fun x => x.2.1) h.1
        · exact congrArg (fun x => x.2.2.1) h.1
      unfold findFnAux
      rw [hse.1, hse.2]
      split
      · rfl
      · exact ih gs h.2 a (k + 1)

theorem findFn_congr (s s' : List FnInfo) (hlen : s'.length = s.length)
    (h : ∀ j, skelAt s' j = skelAt s j) :
    ∀ a, findFunctionByAddress s' a = findFunctionByAddress s a := by
  intro a
  exact findFnAux_congr s s' (mapSkel_of_skelAt s s' hlen h) a 0

theorem findFn_lt_length (s : List FnInfo) (a j : Nat)
    (h : findFunctionByAddress s a = some j) : j < s.length := by
  have aux : ∀ (t : List FnInfo) (k j : Nat), findFnAux t a k = some j →
      j < k + t.length := by
    intro t
    induction t with
    | nil => intro k j h; simp [findFnAux] at h
    | cons f fs ih =>
      intro k j h
      unfold findFnAux at h
      simp only [List.length_cons]
      split at h
      · simp only [Option.some.injEq] at h
        omega
      · have := ih (k + 1) j h
        omega
  have := aux s 0 j h
  omega

theorem filter_length_mono {α : Type} (l : List α) (p q : α → Bool)
    (h : ∀ x ∈ l, q x = true → p x = true) :
    (l.filter q).length ≤ (l.filter p).length := by
  induction l with
  | nil => simp
  | cons x xs ih =>
    have hx := h x (by simp)
    have ih' := ih (fun y hy => h y (by simp [hy]))
    by_cases hq : q x = true
    · rw [List.filter_cons_of_pos hq, List.filter_cons_of_pos (hx hq)]
      simpa using ih'
    · rw [List.filter_cons_of_neg (by simpa using hq)]
      by_cases hp : p x = true
      · rw [List.filter_cons_of_pos hp]
        simp only [List.length_cons]
        omega
      · rw [List.filter_cons_of_neg (by simpa using hp)]
        exact ih'

theorem filter_length_strict {α : Type} (l : List α) (p q : α → Bool)
    (h : ∀ x ∈ l, q x = true → p x = true)
    (x : α) (hx : x ∈ l) (hpx : p x = true) (hqx : q x = false) :
    (l.filter q).length < (l.filter p).length := by
  induction l with
  | nil => simp at hx
  | cons y ys ih =>
    have hy := h y (by simp)
    have hmono := filter_length_mono ys p q (fun z hz => h z (by simp [hz]))
    rcases List.mem_cons.mp hx with hxy | hxys
    · subst hxy
      rw [List.filter_cons_of_neg (by simp [hqx]), List.filter_cons_of_pos hpx]
      simp only [List.length_cons]
      omega
    · have ih' := ih (fun z hz hq => h z (by simp [hz]) hq) hxys
      by_cases hq : q y = true
      · rw [List.filter_cons_of_pos hq, List.filter_cons_of_pos (hy hq)]
        simpa using ih'
      · rw [List.filter_cons_of_neg (by simpa using hq)]
        by_cases hp : p y = true
        · rw [List.filter_cons_of_pos hp]
          simp only [List.length_cons]
          omega
        · rw [List.filter_cons_of_neg (by simpa using hp)]
          exact ih'

theorem pAt_eq_of_get? (s s' : List FnInfo) (j : Nat) (h : s'.get? j = s.get? j) :
    pAt s' j = pAt s j := by
  unfold pAt
  rw [h]

theorem dAt_eq_of_get? (s s' : List FnInfo) (j : Nat) (h : s'.get? j = s.get? j) :
    dAt s' j = dAt s j := by
  unfold dAt
  rw [h]

theorem lt_length_of_get? (s : List FnInfo) (i : Nat) (f : FnInfo) (h : s.get? i = some f) :
    i < s.length := by
  by_contra hge
  rw [List.get?_eq_none.mpr (by omega)] at h
  exact Option.noConfusion h

theorem pAt_set_self (s : List FnInfo) (i : Nat) (f : FnInfo) (h : i < s.length) :
    pAt (s.set i f) i = f.isProcessed := by
  unfold pAt
  rw [get?_set_self s i f h]
  rfl

theorem dAt_set_self (s : List FnInfo) (i : Nat) (f : FnInfo) (h : i < s.length) :
    dAt (s.set i f) i = f.deepest := by
  unfold dAt
  rw [get?_set_self s i f h]
  rfl

theorem skelAt_set_of (s : List FnInfo) (i : Nat) (f g : FnInfo)
    (hg : s.get? i = some g) (h : skel f = skel g) :
    ∀ j, skelAt (s.set i f) j = skelAt s j := by
  intro j
  by_cases hj : j = i
  · subst hj
    unfold skelAt
    rw [get?_set_self s j f (lt_length_of_get? s j g hg), hg]
    simp [h]
  · unfold skelAt
    rw [get?_set_ne' s i j f hj]

theorem basicE_refl (s : List FnInfo) (i : Nat) : BasicE s s i :=
  ⟨rfl, fun _ => rfl, fun _ _ _ => rfl, fun _ h => h, fun _ _ _ => rfl,
    fun h => ⟨h, Nat.le_refl _⟩⟩

theorem basicE_trans {s s1 s2 : List FnInfo} {i : Nat}
    (h1 : BasicE s s1 i) (h2 : BasicE s1 s2 i) : BasicE s s2 i := by
  obtain ⟨l1, k1, m1, p1, u1, g1⟩ := h1
  obtain ⟨l2, k2, m2, p2, u2, g2⟩ := h2
  refine ⟨l2.trans l1, fun j => (k2 j).trans (k1 j), ?_, ?_, ?_, ?_⟩
  · intro j hj hm
    have e1 := m1 j hj hm
    have e2 := m2 j hj (by rw [pAt_eq_of_get? s s1 j e1]; exact hm)
    exact e2.trans e1
  · intro j hm
    exact p2 j (p1 j hm)
  · intro j hj hm
    have hm1 : pAt s1 j = false := by
      cases hp1 : pAt s1 j
      · rfl
      · rw [p2 j hp1] at hm; exact Bool.noConfusion hm
    exact (u2 j hj hm).trans (u1 j hj hm1)
  · intro hm
    obtain ⟨q1, d1⟩ := g1 hm
    obtain ⟨q2, d2⟩ := g2 q1
    exact ⟨q2, d1.trans d2⟩

theorem BasicR.toE {s s' : List FnInfo} {k : Nat} {v : Nat} (i : Nat)
    (h : BasicR s s' k v) : BasicE s s' i := by
  obtain ⟨l, sk, m, p, u, _, _⟩ := h
  refine ⟨l, sk, fun j _ hm => m j hm, p, fun j _ hm => u j hm, ?_⟩
  intro hm
  exact ⟨p i hm, Nat.le_of_eq (dAt_eq_of_get? s s' i (m i hm)).symm⟩

theorem basicE_setmax (s1 : List FnInfo) (i v : Nat) (f : FnInfo)
    (hf : s1.get? i = some f) :
    BasicE s1 (if f.deepest < v then s1.set i { f with deepest := v } else s1) i := by
  split
  · have hi := lt_length_of_get? s1 i f hf
    refine ⟨List.length_set s1 i _, skelAt_set_of s1 i _ f hf rfl, ?_, ?_, ?_, ?_⟩
    · intro j hj _
      exact get?_set_ne' s1 i j _ hj
    · intro j hm
      by_cases hj : j = i
      · subst hj
        rw [pAt_set_self s1 j _ hi]
        unfold pAt at hm
        rw [hf] at hm
        exact hm
      · rw [pAt_eq_of_get? s1 _ j (get?_set_ne' s1 i j _ hj)]
        exact hm
    · intro j hj _
      exact get?_set_ne' s1 i j _ hj
    · intro hm
      constructor
      · rw [pAt_set_self s1 i _ hi]
        unfold pAt at hm
        rw [hf] at hm
        exact hm
      · rw [dAt_set_self s1 i _ hi]
        unfold dAt
        rw [hf]
        simp only [Option.map_some', Option.getD_some]
        omega
  · exact basicE_refl s1 i

theorem basicE (fuel : Nat)
    (hR : ∀ s i out, resolve fuel s i = some out → BasicR s out.1 i out.2.2) :
    ∀ (l : List Nat) (s : List FnInfo) (i : Nat) out,
      resolveEdgesWith (fun s' j => resolve fuel s' j) s i l = some out →
      BasicE s out.1 i := by
  intro l
  induction l with
  | nil =>
    intro s i out h
    unfold resolveEdgesWith at h
    simp only [Option.some.injEq] at h
    rw [← h]
    exact basicE_refl s i
  | cons a rest ih =>
    intro s i out h
    unfold resolveEdgesWith at h
    cases hfa : findFunctionByAddress s a with
    | none =>
      rw [hfa] at h
      cases hfi : s.get? i with
      | none => rw [hfi] at h; exact Option.noConfusion h
      | some f =>
        rw [hfi] at h
        cases hrest : resolveEdgesWith (fun s' j => resolve fuel s' j) s i rest with
        | none => rw [hrest] at h; exact Option.noConfusion h
        | some out' =>
          rw [hrest] at h
          simp only [Option.map_some', Option.some.injEq] at h
          rw [← h]
          exact ih s i out' hrest
    | some j =>
      rw [hfa] at h
      dsimp only at h
      cases hres : resolve fuel s j with
      | none => rw [hres] at h; exact Option.noConfusion h
      | some r1 =>
        rw [hres] at h
        obtain ⟨s1, log1, v⟩ := r1
        dsimp only at h
        cases hfi : s1.get? i with
        | none => rw [hfi] at h; exact Option.noConfusion h
        | some f =>
          rw [hfi] at h
          simp only at h
          cases hrest : resolveEdgesWith (fun s' j => resolve fuel s' j)
              (if f.deepest < v then s1.set i { f with deepest := v } else s1) i rest with
          | none => rw [hrest] at h; exact Option.noConfusion h
          | some out' =>
            rw [hrest] at h
            simp only [Option.map_some', Option.some.injEq] at h
            rw [← h]
            have h1 : BasicE s s1 i := BasicR.toE i (hR s j _ hres)
            have h2 := basicE_setmax s1 i v f hfi
            have h3 := ih _ i out' hrest
            exact basicE_trans (basicE_trans h1 h2) h3

theorem basicR : ∀ (fuel : Nat) (s : List FnInfo) (i : Nat) out,
    resolve fuel s i = some out → BasicR s out.1 i out.2.2 := by
  intro fuel
  induction fuel with
  | zero =>
    intro s i out h
    exact Option.noConfusion h
  | succ n ih =>
    intro s i out h
    unfold resolve at h
    cases hfi : s.get? i with
    | none => rw [hfi] at h; exact Option.noConfusion h
    | some f =>
      rw [hfi] at h
      dsimp only at h
      have hi : i < s.length := lt_length_of_get? s i f hfi
      by_cases hp : f.isProcessed
      · rw [if_pos hp] at h
        simp only [Option.some.injEq] at h
        rw [← h]
        refine ⟨rfl, fun _ => rfl, fun _ _ => rfl, fun _ hm => hm, fun _ _ => rfl, ?_, ?_⟩
        · unfold pAt; rw [hfi]; exact hp
        · unfold dAt; rw [hfi]; rfl
      · rw [if_neg hp] at h
        cases hE : resolveEdgesWith (fun s' j => resolve n s' j)
            (s.set i { f with isProcessed := true }) i f.jumpsTo with
        | none => rw [hE] at h; exact Option.noConfusion h
        | some r2 =>
          rw [hE] at h
          obtain ⟨s2, log⟩ := r2
          dsimp only at h
          cases hg2 : s2.get? i with
          | none => rw [hg2] at h; exact Option.noConfusion h
          | some f2 =>
            rw [hg2] at h
            dsimp only at h
            simp only [Option.some.injEq] at h
            rw [← h]
            have hBE : BasicE (s.set i { f with isProcessed := true }) s2 i :=
              basicE n ih f.jumpsTo _ i (s2, log) hE
            obtain ⟨l2, k2, m2, p2, u2, g2⟩ := hBE
            have hils : i < (s.set i { f with isProcessed := true }).length := by
              rw [List.length_set]; exact hi
            have hs1i : (s.set i { f with isProcessed := true }).get? i =
                some { f with isProcessed := true } :=
              get?_set_self s i _ hi
            have hps1 : pAt (s.set i { f with isProcessed := true }) i = true := by
              rw [pAt_set_self s i _ hi]
            have hps2 : pAt s2 i = true := (g2 hps1).1
            have hf2p : f2.isProcessed = true := by
              unfold pAt at hps2; rw [hg2] at hps2; exact hps2
            have hi2 : i < s2.length := lt_length_of_get? s2 i f2 hg2
            have hlen2 : s2.length = s.length := by
              rw [l2, List.length_set]
            constructor
            · simp only [List.length_set]
              exact hlen2
            constructor
            · intro j
              have e1 : skelAt (s2.set i { f2 with deepest := (f2.deepest + f2.ownStack) % M32 }) j
                  = skelAt s2 j :=
                skelAt_set_of s2 i { f2 with deepest := (f2.deepest + f2.ownStack) % M32 }
                  f2 hg2 rfl j
              have e2 := k2 j
              have e3 : skelAt (s.set i { f with isProcessed := true }) j = skelAt s j :=
                skelAt_set_of s i { f with isProcessed := true } f hfi rfl j
              rw [e1, e2, e3]
            constructor
            · intro j hm
              have hji : j ≠ i := by
                intro hji
                subst hji
                unfold pAt at hm
                rw [hfi] at hm
                simp only [Option.map_some', Option.getD_some] at hm
                exact hp (by rw [hm])
              have hs1j : (s.set i { f with isProcessed := true }).get? j = s.get? j :=
                get?_set_ne' s i j _ hji
              have e2 := m2 j hji (by rw [pAt_eq_of_get? s _ j hs1j]; exact hm)
              rw [get?_set_ne' s2 i j _ hji, e2, hs1j]
            constructor
            · intro j hm
              have hji : j ≠ i := by
                intro hji
                subst hji
                unfold pAt at hm
                rw [hfi] at hm
                simp only [Option.map_some', Option.getD_some] at hm
                exact hp (by rw [hm])
              have hs1j : (s.set i { f with isProcessed := true }).get? j = s.get? j :=
                get?_set_ne' s i j _ hji
              have e2 := p2 j (by rw [pAt_eq_of_get? s _ j hs1j]; exact hm)
              rw [pAt_eq_of_get? s2 _ j (get?_set_ne' s2 i j _ hji)]
              exact e2
            have hpset : pAt (s2.set i
                { f2 with deepest := (f2.deepest + f2.ownStack) % M32 }) i = true := by
              rw [pAt_set_self s2 i _ hi2]
              exact hf2p
            constructor
            · intro j hm
              have hji : j ≠ i := by
                intro hji
                rw [hji, hpset] at hm
                exact Bool.noConfusion hm
              rw [pAt_eq_of_get? s2 _ j (get?_set_ne' s2 i j _ hji)] at hm
              have e2 := u2 j hji hm
              have hs1j : (s.set i { f with isProcessed := true }).get? j = s.get? j :=
                get?_set_ne' s i j _ hji
              rw [get?_set_ne' s2 i j _ hji, e2, hs1j]
            constructor
            · exact hpset
            · rw [dAt_set_self s2 i _ hi2]

theorem U_le_length (s : List FnInfo) : U s ≤ s.length := by
  unfold U
  calc ((List.range s.length).filter (fun j => !pAt s j)).length
      ≤ (List.range s.length).length := List.length_filter_le _ _
    _ = s.length := List.length_range s.length

theorem U_mono_of (s s' : List FnInfo) (hlen : s'.length = s.length)
    (hmono : ∀ j, pAt s j = true → pAt s' j = true) : U s' ≤ U s := by
  unfold U
  rw [hlen]
  apply filter_length_mono
  intro x hx hq
  simp only [Bool.not_eq_true'] at hq ⊢
  cases hps : pAt s x
  · rfl
  · rw [hmono x hps] at hq
    exact hq

theorem U_strict (s : List FnInfo) (i : Nat) (f : FnInfo)
    (hfi : s.get? i = some f) (hp : f.isProcessed = false) :
    U (s.set i { f with isProcessed := true }) < U s := by
  have hi : i < s.length := lt_length_of_get? s i f hfi
  unfold U
  rw [List.length_set]
  refine filter_length_strict _ _ _ ?_ i (List.mem_range.mpr hi) ?_ ?_
  · intro x hx hq
    simp only [Bool.not_eq_true'] at hq ⊢
    by_cases hxi : x = i
    · subst hxi
      rw [pAt_set_self s x _ hi] at hq
      exact Bool.noConfusion hq
    · rw [pAt_eq_of_get? s _ x (get?_set_ne' s i x _ hxi)] at hq
      exact hq
  · simp only [Bool.not_eq_true']
    unfold pAt
    rw [hfi]
    exact hp
  · simp only [Bool.not_eq_false']
    rw [pAt_set_self s i _ hi]

theorem resolveEdgesWith_nil (r : List FnInfo → Nat → Option (List FnInfo × List Diag × Nat))
    (s : List FnInfo) (i : Nat) : resolveEdgesWith r s i [] = some (s, []) := rfl

theorem resolveEdgesWith_cons_unresolved
    (r : List FnInfo → Nat → Option (List FnInfo × List Diag × Nat))
    (s : List FnInfo) (i a : Nat) (rest : List Nat) (f : FnInfo)
    (hfa : findFunctionByAddress s a = none) (hfi : s.get? i = some f) :
    resolveEdgesWith r s i (a :: rest) =
      (resolveEdgesWith r s i rest).map (fun x => (x.1, (f.name, a) :: x.2)) := by
  conv_lhs => rw [resolveEdgesWith]
  rw [hfa, hfi]

theorem resolveEdgesWith_cons_resolved
    (r : List FnInfo → Nat → Option (List FnInfo × List Diag × Nat))
    (s : List FnInfo) (i a : Nat) (rest : List Nat) (j : Nat)
    (s1 : List FnInfo) (log1 : List Diag) (v : Nat) (f : FnInfo)
    (hfa : findFunctionByAddress s a = some j) (hr : r s j = some (s1, log1, v))
    (hfi : s1.get? i = some f) :
    resolveEdgesWith r s i (a :: rest) =
      (resolveEdgesWith r (if f.deepest < v then s1.set i { f with deepest := v } else s1)
        i rest).map (fun x => (x.1, log1 ++ x.2)) := by
  conv_lhs => rw [resolveEdgesWith]
  rw [hfa]
  dsimp only
  rw [hr]
  dsimp only
  rw [hfi]

theorem resolveEdgesWith_cons_fail
    (r : List FnInfo → Nat → Option (List FnInfo × List Diag × Nat))
    (s : List FnInfo) (i a : Nat) (rest : List Nat) (j : Nat)
    (hfa : findFunctionByAddress s a = some j) (hr : r s j = none) :
    resolveEdgesWith r s i (a :: rest) = none := by
  conv_lhs => rw [resolveEdgesWith]
  rw [hfa]
  dsimp only
  rw [hr]

theorem resolve_zero (s : List FnInfo) (i : Nat) : resolve 0 s i = none := rfl

theorem resolve_invalid (fuel : Nat) (s : List FnInfo) (i : Nat) (h : s.get? i = none) :
    resolve (fuel + 1) s i = none := by
  conv_lhs => rw [resolve]
  rw [h]

theorem resolve_marked (fuel : Nat) (s : List FnInfo) (i : Nat) (f : FnInfo)
    (hfi : s.get? i = some f) (hp : f.isProcessed = true) :
    resolve (fuel + 1) s i = some (s, [], f.deepest) := by
  conv_lhs => rw [resolve]
  rw [hfi]
  simp only [hp, if_true]

theorem resolve_unmarked (fuel : Nat) (s : List FnInfo) (i : Nat) (f : FnInfo)
    (hfi : s.get? i = some f) (hp : f.isProcessed = false) :
    resolve (fuel + 1) s i =
      match resolveEdgesWith (fun s' j => resolve fuel s' j)
          (s.set i { f with isProcessed := true }) i f.jumpsTo with
      | none => none
      | some (s2, log) =>
        match s2.get? i with
        | none => none
        | some f2 =>
          some (s2.set i { f2 with deepest := (f2.deepest + f2.ownStack) % M32 },
            log, (f2.deepest + f2.ownStack) % M32) := by
  conv_lhs => rw [resolve]
  rw [hfi]
  simp only [hp, if_false, Bool.false_eq_true]

theorem resolveEdges_isSome (fuel : Nat)
    (hRsome : ∀ s i, i < s.length → U s + 1 ≤ fuel → (resolve fuel s i).isSome) :
    ∀ (l : List Nat) (s : List FnInfo) (i : Nat), i < s.length → U s + 1 ≤ fuel →
      (resolveEdgesWith (fun s' j => resolve fuel s' j) s i l).isSome := by
  intro l
  induction l with
  | nil =>
    intro s i hi hfuel
    rfl
  | cons a rest ih =>
    intro s i hi hfuel
    cases hfa : findFunctionByAddress s a with
    | none =>
      cases hfi : s.get? i with
      | none =>
        exact absurd hfi (by rw [List.get?_eq_some.mpr ⟨hi, rfl⟩]; exact fun h => Option.noConfusion h)
      | some f =>
        rw [resolveEdgesWith_cons_unresolved _ s i a rest f hfa hfi]
        have := ih s i hi hfuel
        cases hrest : resolveEdgesWith (fun s' j => resolve fuel s' j) s i rest with
        | none => rw [hrest] at this; exact Bool.noConfusion this
        | some out' => rfl
    | some j =>
      have hj : j < s.length := findFn_lt_length s a j hfa
      have hres := hRsome s j hj hfuel
      cases hresv : resolve fuel s j with
      | none => rw [hresv] at hres; exact Bool.noConfusion hres
      | some r1 =>
        obtain ⟨s1, log1, v⟩ := r1
        have hB := basicR fuel s j _ hresv
        obtain ⟨l1, k1, m1, p1, u1, _, _⟩ := hB
        have hi1 : i < s1.length := by rw [l1]; exact hi
        cases hfi : s1.get? i with
        | none =>
          exact absurd hfi
            (by rw [List.get?_eq_some.mpr ⟨hi1, rfl⟩]; exact fun h => Option.noConfusion h)
        | some f =>
          rw [resolveEdgesWith_cons_resolved _ s i a rest j s1 log1 v f hfa hresv hfi]
          have hE2 := basicE_setmax s1 i v f hfi
          obtain ⟨l2, k2, m2, p2, u2, _⟩ := hE2
          have hi2 : i < (if f.deepest < v then s1.set i { f with deepest := v } else s1).length := by
            rw [l2]; exact hi1
          have hU2 : U (if f.deepest < v then s1.set i { f with deepest := v } else s1) ≤ U s := by
            calc U (if f.deepest < v then s1.set i { f with deepest := v } else s1)
                ≤ U s1 := U_mono_of s1 _ l2 p2
              _ ≤ U s := U_mono_of s s1 l1 p1
          have := ih _ i hi2 (by omega)
          cases hrest : resolveEdgesWith (fun s' j => resolve fuel s' j)
              (if f.deepest < v then s1.set i { f with deepest := v } else s1) i rest with
          | none => rw [hrest] at this; exact Bool.noConfusion this
          | some out' => rfl

theorem resolve_isSome : ∀ (fuel : Nat) (s : List FnInfo) (i : Nat),
    i < s.length → U s + 1 ≤ fuel → (resolve fuel s i).isSome := by
  intro fuel
  induction fuel with
  | zero =>
    intro s i hi hfuel
    omega
  | succ n ih =>
    intro s i hi hfuel
    cases hfi : s.get? i with
    | none =>
      exact absurd hfi
        (by rw [List.get?_eq_some.mpr ⟨hi, rfl⟩]; exact fun h => Option.noConfusion h)
    | some f =>
      by_cases hp : f.isProcessed = true
      · rw [resolve_marked n s i f hfi hp]
        rfl
      · have hp' : f.isProcessed = false := by
          cases hpv : f.isProcessed
          · rfl
          · exact absurd hpv hp
        rw [resolve_unmarked n s i f hfi hp']
        have hUs : U (s.set i { f with isProcessed := true }) < U s :=
          U_strict s i f hfi hp'
        have hi1 : i < (s.set i { f with isProcessed := true }).length := by
          rw [List.length_set]; exact hi
        have hE := resolveEdges_isSome n ih f.jumpsTo
          (s.set i { f with isProcessed := true }) i hi1 (by omega)
        cases hEv : resolveEdgesWith (fun s' j => resolve n s' j)
            (s.set i { f with isProcessed := true }) i f.jumpsTo with
        | none => rw [hEv] at hE; exact Bool.noConfusion hE
        | some r2 =>
          obtain ⟨s2, log⟩ := r2
          dsimp only
          have hBE := basicE n (basicR n) f.jumpsTo _ i (s2, log) hEv
          have hi2 : i < s2.length := by
            rw [hBE.1, List.length_set]; exact hi
          cases hg2 : s2.get? i with
          | none =>
            exact absurd hg2
              (by rw [List.get?_eq_some.mpr ⟨hi2, rfl⟩]; exact fun h => Option.noConfusion h)
          | some f2 => rfl

theorem basicP_refl (s : List FnInfo) : BasicP s s :=
  ⟨rfl, fun _ => rfl, fun _ _ => rfl, fun _ h => h, fun _ _ => rfl⟩

theorem basicP_trans {s s1 s2 : List FnInfo}
    (h1 : BasicP s s1) (h2 : BasicP s1 s2) : BasicP s s2 := by
  obtain ⟨l1, k1, m1, p1, u1⟩ := h1
  obtain ⟨l2, k2, m2, p2, u2⟩ := h2
  refine ⟨l2.trans l1, fun j => (k2 j).trans (k1 j), ?_, ?_, ?_⟩
  · intro j hm
    exact (m2 j (p1 j hm)).trans (m1 j hm)
  · intro j hm
    exact p2 j (p1 j hm)
  · intro j hm
    have hm1 : pAt s1 j = false := by
      cases hp1 : pAt s1 j
      · rfl
      · rw [p2 j hp1] at hm; exact Bool.noConfusion hm
    exact (u2 j hm).trans (u1 j hm1)

theorem BasicR.toP {s s' : List FnInfo} {i v : Nat} (h : BasicR s s' i v) : BasicP s s' :=
  ⟨h.1, h.2.1, h.2.2.1, h.2.2.2.1, h.2.2.2.2.1⟩

theorem resolvePassGo_isSome : ∀ (is : List Nat) (s : List FnInfo) (log : List Diag),
    (∀ i ∈ is, i < s.length) →
    ∃ s' log', resolvePassGo is s log = some (s', log') ∧ BasicP s s' ∧
      (∀ i ∈ is, pAt s' i = true) := by
  intro is
  induction is with
  | nil =>
    intro s log hmem
    exact ⟨s, log, rfl, basicP_refl s, fun i hi => absurd hi (List.not_mem_nil i)⟩
  | cons i is ih =>
    intro s log hmem
    have hi : i < s.length := hmem i (by simp)
    have hsome := resolve_isSome (s.length + 1) s i hi (by have := U_le_length s; omega)
    cases hres : resolve (s.length + 1) s i with
    | none => rw [hres] at hsome; exact Bool.noConfusion hsome
    | some r =>
      obtain ⟨s1, d, v⟩ := r
      have hB := basicR (s.length + 1) s i _ hres
      have hmem1 : ∀ k ∈ is, k < s1.length := by
        intro k hk
        rw [hB.1]
        exact hmem k (by simp [hk])
      obtain ⟨s', log', hgo, hP, hmarked⟩ := ih s1 (log ++ d) hmem1
      refine ⟨s', log', ?_, basicP_trans (BasicR.toP hB) hP, ?_⟩
      · unfold resolvePassGo
        rw [hres]
        exact hgo
      · intro k hk
        rcases List.mem_cons.mp hk with hki | hkis
        · subst hki
          exact hP.2.2.2.1 k hB.2.2.2.2.2.1
        · exact hmarked k hkis

theorem resolvePass_spec (s : List FnInfo) :
    ∃ s' log, resolvePass s = some (s', log) ∧ BasicP s s' ∧
      (∀ i, i < s.length → pAt s' i = true) := by
  obtain ⟨s', log', hgo, hP, hmarked⟩ :=
    resolvePassGo_isSome (List.range s.length) s []
      (fun i hi => List.mem_range.mp hi)
  exact ⟨s', log', hgo, hP, fun i hi => hmarked i (List.mem_range.mpr hi)⟩

theorem resolvePass_isSome (s : List FnInfo) : (resolvePass s).isSome := by
  obtain ⟨s', log, h, _, _⟩ := resolvePass_spec s
  rw [h]
  rfl

/-- Claim C1: for every call graph — in particular every graph containing a
direct or mutual recursion cycle — the depth resolver terminates: the
resolution pass always produces a result (the `isProcessed` guard bounds
the recursion, modelled by showing the fuel `length + 1` never runs out).
In the specific mutual-recursion scenario `A` (frame 16, calls `B`) and
`B` (frame 16, calls `A`), the pass starting at `A` first completes `B`
(the first-resolved member of the pair), whose `deepestStackBytes` is `16`
— its own frame only, the cyclic edge back to the in-progress `A` having
returned `A`'s partial value `0` — while `A` ends at `32`. -/
theorem claim_C1_cycle_termination_and_mutual_scenario :
    (∀ s : List FnInfo, (resolvePass s).isSome) ∧
    (resolvePass [mutualA, mutualB]).map
        (fun x => x.1.map (fun f => (f.deepest, f.isProcessed))) =
      some [(32, true), (16, true)] :=
  ⟨resolvePass_isSome, by decide⟩

/-- Claim C3: the specification demands unbounded growable edge storage
with no silent cap, and flags the two inconsistent hardcoded caps of the
original code as a soundness bug to eliminate.  The code indeed has both
caps and no error branch at all: closing a record that keeps 1001 edges
writes past `cleanupFunctionInfo`'s fixed `uint32_t jumpsTo[1000]` scratch
buffer, and recording a 10001st branch writes past the 10000-entry buffer
`createNewFunctionInfo` allocated — both undefined behaviour (`none`), not
lossless unbounded storage. -/
theorem claim_C3_fixed_caps_overflow :
    cleanupFunctionInfo capViolationRec = none ∧ recordJump fullEdgesRec 0 = none := by
  constructor
  · have hproj : capViolationRec.jumpsTo = capViolationJumps := by
      simp [capViolationRec]
    have hkeep : capViolationRec.jumpsTo.filter
        (fun t => t > capViolationRec.fend || t < capViolationRec.start) =
        capViolationRec.jumpsTo := by
      apply List.filter_eq_self.mpr
      intro t ht
      rw [hproj] at ht
      unfold capViolationJumps at ht
      simp only [List.mem_map, List.mem_range] at ht
      obtain ⟨k, hk, rfl⟩ := ht
      simp [capViolationRec]
    have hlen : capViolationRec.jumpsTo.length = 1001 := by
      rw [hproj]
      unfold capViolationJumps
      rw [List.length_map, List.length_range]
    simp only [cleanupFunctionInfo]
    rw [hkeep, if_neg (by rw [hlen]; omega)]
  · have hproj : fullEdgesRec.jumpsTo = fullEdgesJumps := by
      simp [fullEdgesRec]
    have hlen : fullEdgesRec.jumpsTo.length = 10000 := by
      rw [hproj]
      unfold fullEdgesJumps
      exact List.length_replicate 10000 0
    simp only [recordJump]
    rw [if_neg (by rw [hlen]; omega)]

/-- Claim C6, counterexample: for the record `c6Rec` with 1001 surviving
edges, closing does not produce the filtered edge list the claim describes
for every record — the C code overflows its 1000-entry scratch buffer
(undefined behaviour, modelled `none`). -/
theorem claim_C6_counterexample :
    cleanupFunctionInfo c6Rec = none ∧
    (c6Rec.jumpsTo.filter (fun t => t > c6Rec.fend || t < c6Rec.start)).length = 1001 := by
  have hproj : c6Rec.jumpsTo = c6Jumps := by
    simp [c6Rec]
  have hfe : c6Rec.jumpsTo.filter (fun t => t > c6Rec.fend || t < c6Rec.start)
      = c6Rec.jumpsTo := by
    apply List.filter_eq_self.mpr
    intro t ht
    rw [hproj] at ht
    unfold c6Jumps at ht
    simp only [List.mem_map, List.mem_range] at ht
    obtain ⟨k, hk, rfl⟩ := ht
    simp [c6Rec]
  have hlen : (c6Rec.jumpsTo.filter (fun t => t > c6Rec.fend || t < c6Rec.start)).length
      = 1001 := by
    rw [hfe, hproj]
    unfold c6Jumps
    rw [List.length_map, List.length_range]
  constructor
  · simp only [cleanupFunctionInfo]
    rw [if_neg (by rw [hlen]; omega)]
  · exact hlen

/-- Claim C6 (amended): provided at most 1000 edges survive, closing a
record filters its edge list to exactly the targets strictly outside the
inclusive range `[start, fend]` — a direct self-call to `start` included —
and the kept edges are a sublist of the original list, i.e. they retain
their recording order; no other field changes. -/
theorem claim_C6_cleanup_filters_strictly_outside (f : FnInfo)
    (hse : f.start ≤ f.fend)
    (h : (f.jumpsTo.filter (fun t => t > f.fend || t < f.start)).length ≤ 1000) :
    ∃ f', cleanupFunctionInfo f = some f' ∧
      f'.jumpsTo = f.jumpsTo.filter (fun t => t > f.fend || t < f.start) ∧
      f'.jumpsTo.Sublist f.jumpsTo ∧
      (∀ t ∈ f'.jumpsTo, t < f.start ∨ t > f.fend) ∧
      (∀ t ∈ f.jumpsTo, (t < f.start ∨ t > f.fend) → t ∈ f'.jumpsTo) ∧
      f.start ∉ f'.jumpsTo ∧
      f'.name = f.name ∧ f'.start = f.start ∧ f'.fend = f.fend ∧
      f'.ownStack = f.ownStack ∧ f'.deepest = f.deepest ∧
      f'.isProcessed = f.isProcessed := by
  refine ⟨{ f with jumpsTo := f.jumpsTo.filter (fun t => t > f.fend || t < f.start) }, ?_,
    rfl, List.filter_sublist _, ?_, ?_, ?_, rfl, rfl, rfl, rfl, rfl, rfl⟩
  · unfold cleanupFunctionInfo
    rw [if_pos h]
  · intro t ht
    have := List.of_mem_filter ht
    simp only [Bool.or_eq_true, decide_eq_true_eq] at this
    omega
  · intro t ht hcond
    apply List.mem_filter.mpr
    refine ⟨ht, ?_⟩
    simp only [Bool.or_eq_true, decide_eq_true_eq]
    omega
  · intro hmem
    have := List.of_mem_filter hmem
    simp only [Bool.or_eq_true, decide_eq_true_eq] at this
    omega

/-- Witness for the amended C6 at a concrete record: range `[10, 20]`,
edges `[5, 10, 15, 20, 21, 10]` close to `[5, 21]`. -/
theorem claim_C6_witness :
    ∃ f', cleanupFunctionInfo ⟨("w").toList, 10, 20, 3, 0, [5, 10, 15, 20, 21, 10], false, false⟩
        = some f' ∧ f'.jumpsTo = [5, 21] := by
  obtain ⟨f', h1, h2, _⟩ :=
    claim_C6_cleanup_filters_strictly_outside
      ⟨("w").toList, 10, 20, 3, 0, [5, 10, 15, 20, 21, 10], false, false⟩ (by decide) (by decide)
  refine ⟨f', h1, ?_⟩
  rw [h2]
  decide

/-- Claim C7: when an edge's target address is contained in no record's
range, the resolver appends a diagnostic carrying the calling function's
name and the target address, treats the edge as contributing nothing, and
continues: the result is exactly the result of processing the remaining
edges, with the diagnostic prepended to their log. -/
theorem claim_C7_unresolved_target_logged_and_skipped
    (fuel : Nat) (s : List FnInfo) (i a : Nat) (rest : List Nat) (f : FnInfo)
    (hfi : s.get? i = some f) (hfa : findFunctionByAddress s a = none) :
    resolveEdges fuel s i (a :: rest) =
      (resolveEdges fuel s i rest).map (fun x => (x.1, (f.name, a) :: x.2)) :=
  resolveEdgesWith_cons_unresolved _ s i a rest f hfa hfi

/-- Witness for C7: in the one-record list `[diagRec]`, the edge to
address 99 resolves to no record; the resolver logs `("D", 99)`, leaves
the state untouched and finishes. -/
theorem claim_C7_witness :
    findFunctionByAddress [diagRec] 99 = none ∧
    resolveEdges 1 [diagRec] 0 [99] = some ([diagRec], [(("D").toList, 99)]) := by
  have h := claim_C7_unresolved_target_logged_and_skipped 1 [diagRec] 0 99 [] diagRec
    (by rfl) (by decide)
  exact ⟨by decide, by rw [h]; rfl⟩

theorem containsSub_cons (pat : List Char) (x : Char) (rest : List Char) :
    containsSub pat (x :: rest) = (isPrefixList pat (x :: rest) || containsSub pat rest) := by
  unfold containsSub
  conv_lhs => rw [firstInfixIdx]
  cases h : isPrefixList pat (x :: rest) with
  | true => simp
  | false => cases hf : firstInfixIdx pat rest <;> simp

theorem mem_of_isPrefixList (pat l : List Char) (h : isPrefixList pat l = true) :
    ∀ c ∈ pat, c ∈ l := by
  induction pat generalizing l with
  | nil => intro c hc; exact absurd hc (List.not_mem_nil c)
  | cons a as ih =>
    cases l with
    | nil => exact absurd h (by simp [isPrefixList])
    | cons b bs =>
      unfold isPrefixList at h
      simp only [Bool.and_eq_true, beq_iff_eq] at h
      intro c hc
      rcases List.mem_cons.mp hc with hca | hcas
      · subst hca
        rw [h.1]
        exact List.mem_cons_self b bs
      · exact List.mem_cons_of_mem b (ih bs h.2 c hcas)

theorem mem_of_containsSub (pat l : List Char) (h : containsSub pat l = true) :
    ∀ c ∈ pat, c ∈ l := by
  induction l with
  | nil =>
    intro c hc
    unfold containsSub firstInfixIdx at h
    split at h
    · rename_i hpre
      cases pat with
      | nil => exact absurd hc (List.not_mem_nil c)
      | cons a as => exact absurd hpre (by simp [isPrefixList])
    · exact Bool.noConfusion h
  | cons x rest ih =>
    rw [containsSub_cons] at h
    rcases Bool.or_eq_true_iff.mp h with hpre | hrest
    · exact mem_of_isPrefixList pat (x :: rest) hpre
    · intro c hc
      exact List.mem_cons_of_mem x (ih hrest c hc)

theorem firstIdxOf_isSome_of_mem (c : Char) (l : List Char) (h : c ∈ l) :
    (firstIdxOf c l).isSome := by
  induction l with
  | nil => exact absurd h (List.not_mem_nil c)
  | cons x rest ih =>
    unfold firstIdxOf
    by_cases hx : x == c
    · rw [if_pos hx]; rfl
    · rw [if_neg hx]
      have hc : c ∈ rest := by
        rcases List.mem_cons.mp h with hcx | hcr
        · exact absurd (beq_iff_eq.mpr hcx.symm) hx
        · exact hcr
      cases hf : firstIdxOf c rest with
      | none => rw [hf] at ih; exact absurd (ih hc) (by simp)
      | some k => rfl

theorem lastIdxOf_isSome_of_mem (c : Char) (l : List Char) (h : c ∈ l) :
    (lastIdxOf c l).isSome := by
  unfold lastIdxOf
  have hrev : c ∈ l.reverse := List.mem_reverse.mpr h
  cases hf : firstIdxOf c l.reverse with
  | none =>
    have := firstIdxOf_isSome_of_mem c l.reverse hrev
    rw [hf] at this
    exact absurd this (by simp)
  | some k => rfl

theorem branchTargetTail_isSome_of_tab (line : List Char) (h : '\t' ∈ line) :
    (branchTargetTail line).isSome := by
  unfold branchTargetTail
  cases hc : lastIdxOf ',' line with
  | some k => rfl
  | none =>
    cases ht : lastIdxOf '\t' line with
    | none =>
      have := lastIdxOf_isSome_of_mem '\t' line h
      rw [ht] at this
      exact absurd this (by simp)
    | some k => rfl

/-- Claim C9, counterexample: the branch line `" \tb\tzzz"` superficially
looks like a control transfer and carries no resolvable hex target, yet
the classifier does not drop it: `strtoul` of the text after the last tab
yields `0` and an edge to address `0` is recorded. -/
theorem claim_C9_counterexample :
    containsSub bPattern c9Line = true ∧
    containsSub jrRaString c9Line = false ∧
    containsSub jalrString c9Line = false ∧
    containsSub jrString c9Line = false ∧
    (parseInstr c9Line c9Rec).map (fun g => g.jumpsTo) = some [0] := by
  refine ⟨by decide, by decide, by decide, by decide, by decide⟩

/-- Claim C9 (amended): an instruction line that matches the branch/jump
patterns and none of the `jr ra` / `jalr` / `jr` special cases is not
dropped: the classifier always extracts the text after the last comma
(else the last tab), parses it with `strtoul` base 16 — yielding `0` for
text with no hex prefix — and records a call edge with that value, without
aborting (provided the 10000-entry buffer is not yet full, see C3).
Second conjunct: for a line that is neither a section header nor a label,
the loop body defers entirely to this instruction classifier. -/
theorem claim_C9_bogus_branch_records_edge :
    (∀ (line : List Char) (f : FnInfo),
      (containsSub bPattern line = true ∨ containsSub jPattern line = true) →
      containsSub jrRaString line = false →
      containsSub jalrString line = false →
      containsSub jrString line = false →
      containsSub stackPointerString line = false →
      f.jumpsTo.length < 10000 →
      ∃ tl, branchTargetTail line = some tl ∧
        parseInstr line f =
          some { (if strtoul16 line > f.fend then { f with fend := strtoul16 line } else f) with
                   jumpsTo := f.jumpsTo ++ [strtoul16 tl] }) ∧
    (∀ (line : List Char) (rest : List (List Char)) (eof : Bool)
        (closed : List FnInfo) (f : FnInfo),
      containsSub sectionString line = false →
      containsSub labelEndString line = false →
      parseStep line rest eof closed f =
        (parseInstr line f).map (fun f' => (closed, some f', rest, eof))) := by
  constructor
  · intro line f hbj hjrra hjalr hjr hsp hcap
    have htab : '\t' ∈ line := by
      rcases hbj with h | h
      · exact mem_of_containsSub bPattern line h '\t' (by decide)
      · exact mem_of_containsSub jPattern line h '\t' (by decide)
    have hb : (containsSub bPattern line || containsSub jPattern line) = true := by
      rcases hbj with h | h <;> simp [h]
    obtain ⟨tl, htl⟩ := Option.isSome_iff_exists.mp (branchTargetTail_isSome_of_tab line htab)
    refine ⟨tl, htl, ?_⟩
    unfold parseInstr
    rw [hsp]
    simp only [Bool.false_eq_true, if_false]
    rw [hb]
    simp only [if_true]
    rw [hjrra]
    simp only [Bool.false_eq_true, if_false]
    rw [hjalr]
    simp only [Bool.false_eq_true, if_false]
    rw [hjr]
    simp only [Bool.false_eq_true, if_false]
    rw [htl]
    dsimp only
    unfold recordJump
    have hj1 : (if strtoul16 line > f.fend then { f with fend := strtoul16 line } else f).jumpsTo
        = f.jumpsTo := by
      split <;> rfl
    rw [hj1, if_pos hcap]
  · intro line rest eof closed f hsec hlab
    unfold parseStep
    rw [hsec]
    simp only [Bool.false_eq_true, if_false]
    rw [hlab]
    simp only [Bool.false_eq_true, if_false]

/-- Witness for the amended C9 at the concrete line `" \tb\tzzz"` and the
record `c9Rec`: the extracted tail is `"zzz"`, its `strtoul` value is `0`,
and the recorded edge list becomes `[0]`. -/
theorem claim_C9_witness :
    ∃ tl, branchTargetTail c9Line = some tl ∧
      parseInstr c9Line c9Rec =
        some { (if strtoul16 c9Line > c9Rec.fend then { c9Rec with fend := strtoul16 c9Line }
                else c9Rec) with jumpsTo := c9Rec.jumpsTo ++ [strtoul16 tl] } :=
  claim_C9_bogus_branch_records_edge.1 c9Line c9Rec (Or.inl (by decide))
    (by decide) (by decide) (by decide) (by decide) (by decide)

/-- Claim C8, counterexample: the label `"9d0 >ab<:"` carries both
brackets but with the first `>` (index 4) before the first `<` (index 7).
The claim promises a clean fatal abort with the `something went wrong...`
message, but `createNewFunctionInfo` does not reach its `return 0`: it
computes `malloc((nameEnd-name)*sizeof(char))` with a negative difference
and `memcpy`s a huge length through the result — undefined behaviour (a
crash with no message), not the claimed clean abort.  Fed as the first
label of an otherwise well-formed stream, the run crashes rather than
exiting fatally. -/
theorem claim_C8_counterexample :
    (∃ p q, firstIdxOf '<' c8BadLabel = some p ∧ firstIdxOf '>' c8BadLabel = some q ∧
      q < p) ∧
    createNewFunctionInfo c8BadLabel = none ∧
    runParse [("Disassembly of section .text:").toList, ("").toList, c8BadLabel] =
      some ParseResult.crashed ∧
    ParseResult.crashed ≠ ParseResult.fatalError := by
  refine ⟨⟨7, 4, by decide, by decide, by decide⟩, by decide, by decide, by decide⟩

/-- Claim C8 (amended): a label line that cannot be parsed into a valid
bracketed name yields no record, and — when a bracket is missing outright
— the running parse is aborted as fatal; when instead both brackets are
present in reversed order, the program has undefined behaviour (a
negative-length `malloc`/`memcpy`, a crash with no message), not the
clean abort (see the counterexample).  First conjunct:
`createNewFunctionInfo` reaches its clean `return 0` exactly when the
first `<` or the first `>` is missing (no unnamed record is ever
produced).  Second conjunct: on a parseable label the record carries
exactly the bracketed name and the parsed start address.  Third conjunct:
with both brackets present but the first `>` not after the first `<`,
the call is undefined behaviour.  Fourth conjunct: whenever the
current-record pointer is the null result of a clean failed label parse
and the stream has not reached end of file — which holds whenever the
offending label was an actual input line, since the successful `fgets`
that read it leaves the EOF flag clear — the next loop iteration prints
`something went wrong...` and exits with `-1`
(`ParseResult.fatalError`). -/
theorem claim_C8_malformed_label_fatal :
    (∀ l : List Char, createNewFunctionInfo l = some none ↔
      (firstIdxOf '<' l = none ∨ firstIdxOf '>' l = none)) ∧
    (∀ (l : List Char) (p q : Nat), firstIdxOf '<' l = some p → firstIdxOf '>' l = some q →
      p < q → createNewFunctionInfo l =
        some (some ⟨(l.drop (p + 1)).take (q - p - 1), strtoul16 l, strtoul16 l,
          0, 0, [], false, false⟩)) ∧
    (∀ (l : List Char) (p q : Nat), firstIdxOf '<' l = some p → firstIdxOf '>' l = some q →
      q ≤ p → createNewFunctionInfo l = none) ∧
    (∀ (fuel : Nat) (input : List (List Char)) (closed : List FnInfo),
      parseIter (fuel + 1) input false closed none = some ParseResult.fatalError) := by
  refine ⟨?_, ?_, ?_, ?_⟩
  · intro l
    unfold createNewFunctionInfo
    cases hp : firstIdxOf '<' l with
    | none =>
      cases hq : firstIdxOf '>' l with
      | none => simp
      | some q => simp
    | some p =>
      cases hq : firstIdxOf '>' l with
      | none => simp
      | some q =>
        dsimp only
        by_cases hpq : p < q
        · rw [if_pos hpq]
          simp
        · rw [if_neg hpq]
          simp
  · intro l p q hp hq hpq
    unfold createNewFunctionInfo
    rw [hp, hq]
    dsimp only
    rw [if_pos hpq]
  · intro l p q hp hq hqp
    unfold createNewFunctionInfo
    rw [hp, hq]
    dsimp only
    rw [if_neg (by omega)]
  · intro fuel input closed
    rfl

/-- Witness for the amended C8: the label `"9d0 <ab>:"` parses into a
record named `ab` starting at `0x9d0 = 2512`; the reversed-bracket label
`"9d0 >ab<:"` hits the undefined-behaviour branch; and with a null
current record and input remaining, the loop aborts fatally. -/
theorem claim_C8_witness :
    createNewFunctionInfo c8Label =
      some (some ⟨("ab").toList, 2512, 2512, 0, 0, [], false, false⟩) ∧
    createNewFunctionInfo c8BadLabel = none ∧
    parseIter 1 [("x").toList] false [] none = some ParseResult.fatalError := by
  refine ⟨?_, ?_, ?_⟩
  · have h := claim_C8_malformed_label_fatal.2.1 c8Label 4 7 (by decide) (by decide)
      (by decide)
    rw [h]
    decide
  · exact claim_C8_malformed_label_fatal.2.2.1 c8BadLabel 7 4 (by decide) (by decide)
      (by decide)
  · exact claim_C8_malformed_label_fatal.2.2.2 0 [("x").toList] []

theorem sortPass_zero (key : FnInfo → Nat) (l : List FnInfo) : sortPass key 0 l = l := by
  cases l with
  | nil => rfl
  | cons a t => cases t <;> rfl

theorem sortPass_nil (key : FnInfo → Nat) (n : Nat) : sortPass key n [] = [] := by
  cases n <;> rfl

theorem sortPass_single (key : FnInfo → Nat) (n : Nat) (a : FnInfo) :
    sortPass key n [a] = [a] := by
  cases n <;> rfl

theorem sortPass_succ_cons (key : FnInfo → Nat) (n : Nat) (a b : FnInfo) (rest : List FnInfo) :
    sortPass key (n + 1) (a :: b :: rest) =
      if key a < key b then b :: sortPass key n (a :: rest)
      else a :: sortPass key n (b :: rest) := rfl

theorem sortPass_length (key : FnInfo → Nat) :
    ∀ (n : Nat) (l : List FnInfo), (sortPass key n l).length = l.length := by
  intro n
  induction n with
  | zero => intro l; rw [sortPass_zero]
  | succ n ih =>
    intro l
    match l with
    | [] => rw [sortPass_nil]
    | [a] => rw [sortPass_single]
    | a :: b :: rest =>
      rw [sortPass_succ_cons]
      split
      · simp only [List.length_cons, ih (a :: rest), List.length_cons]
      · simp only [List.length_cons, ih (b :: rest), List.length_cons]

theorem sortPass_perm (key : FnInfo → Nat) :
    ∀ (n : Nat) (l : List FnInfo), (sortPass key n l).Perm l := by
  intro n
  induction n with
  | zero => intro l; rw [sortPass_zero]
  | succ n ih =>
    intro l
    match l with
    | [] => rw [sortPass_nil]
    | [a] => rw [sortPass_single]
    | a :: b :: rest =>
      rw [sortPass_succ_cons]
      split
      · exact ((ih (a :: rest)).cons b).trans (List.Perm.swap a b rest)
      · exact (ih (b :: rest)).cons a

theorem sortPass_filter (key : FnInfo → Nat) (v : Nat) :
    ∀ (n : Nat) (l : List FnInfo),
      (sortPass key n l).filter (fun f => key f == v) = l.filter (fun f => key f == v) := by
  intro n
  induction n with
  | zero => intro l; rw [sortPass_zero]
  | succ n ih =>
    intro l
    match l with
    | [] => rw [sortPass_nil]
    | [a] => rw [sortPass_single]
    | a :: b :: rest =>
      rw [sortPass_succ_cons]
      split
      · rename_i hab
        rw [List.filter_cons, List.filter_cons, List.filter_cons, ih (a :: rest),
          List.filter_cons]
        by_cases hav : key a = v
        · by_cases hbv : key b = v
          · omega
          · simp [hav, hbv]
        · by_cases hbv : key b = v
          · simp [hav, hbv]
          · simp [hav, hbv]
      · rw [List.filter_cons, List.filter_cons, List.filter_cons, ih (b :: rest),
          List.filter_cons]

theorem sortPass_drop (key : FnInfo → Nat) :
    ∀ (n : Nat) (l : List FnInfo), (sortPass key n l).drop (n + 1) = l.drop (n + 1) := by
  intro n
  induction n with
  | zero => intro l; rw [sortPass_zero]
  | succ n ih =>
    intro l
    match l with
    | [] => rw [sortPass_nil]
    | [a] => rw [sortPass_single]
    | a :: b :: rest =>
      rw [sortPass_succ_cons]
      split
      · show (sortPass key n (a :: rest)).drop (n + 1) = (b :: rest).drop (n + 1)
        rw [ih (a :: rest)]
        rfl
      · show (sortPass key n (b :: rest)).drop (n + 1) = (b :: rest).drop (n + 1)
        rw [ih (b :: rest)]

theorem sortPass_min (key : FnInfo → Nat) :
    ∀ (n : Nat) (l : List FnInfo) (fx : FnInfo),
      (sortPass key n l).get? n = some fx → ∀ x ∈ l.take (n + 1), key fx ≤ key x := by
  intro n
  induction n with
  | zero =>
    intro l fx h x hx
    rw [sortPass_zero] at h
    cases l with
    | nil => exact Option.noConfusion h
    | cons a t =>
      simp only [List.get?] at h
      rw [Option.some.injEq] at h
      subst h
      simp only [List.take, List.take_zero] at hx
      rcases List.mem_singleton.mp hx with rfl
      exact Nat.le_refl _
  | succ n ih =>
    intro l fx h x hx
    match l with
    | [] => rw [sortPass_nil] at h; exact Option.noConfusion h
    | [a] =>
      rw [sortPass_single] at h
      simp only [List.get?] at h
      cases n <;> exact Option.noConfusion h
    | a :: b :: rest =>
      rw [sortPass_succ_cons] at h
      have htake : (a :: b :: rest).take (n + 2) = a :: b :: rest.take n := rfl
      rw [htake] at hx
      split at h
      · rename_i hab
        have h' : (sortPass key n (a :: rest)).get? n = some fx := h
        have ihs := ih (a :: rest) fx h'
        have hta : (a :: rest).take (n + 1) = a :: rest.take n := rfl
        rcases List.mem_cons.mp hx with rfl | hx2
        · exact ihs x (by rw [hta]; exact List.mem_cons_self _ _)
        · rcases List.mem_cons.mp hx2 with rfl | hx3
          · have ha := ihs a (by rw [hta]; exact List.mem_cons_self _ _)
            omega
          · exact ihs x (by rw [hta]; exact List.mem_cons_of_mem a hx3)
      · rename_i hab
        have h' : (sortPass key n (b :: rest)).get? n = some fx := h
        have ihs := ih (b :: rest) fx h'
        have htb : (b :: rest).take (n + 1) = b :: rest.take n := rfl
        rcases List.mem_cons.mp hx with rfl | hx2
        · have hb := ihs b (by rw [htb]; exact List.mem_cons_self _ _)
          omega
        · rcases List.mem_cons.mp hx2 with rfl | hx3
          · exact ihs x (by rw [htb]; exact List.mem_cons_self _ _)
          · exact ihs x (by rw [htb]; exact List.mem_cons_of_mem b hx3)

theorem sortLoop_succ (key : FnInfo → Nat) (i : Nat) (l : List FnInfo) :
    sortLoop key (i + 1) l = sortLoop key i (sortPass key (i + 1) l) := rfl

theorem sortLoop_perm (key : FnInfo → Nat) :
    ∀ (i : Nat) (l : List FnInfo), (sortLoop key i l).Perm l := by
  intro i
  induction i with
  | zero => intro l; exact List.Perm.refl l
  | succ i ih =>
    intro l
    rw [sortLoop_succ]
    exact (ih (sortPass key (i + 1) l)).trans (sortPass_perm key (i + 1) l)

theorem sortLoop_filter (key : FnInfo → Nat) (v : Nat) :
    ∀ (i : Nat) (l : List FnInfo),
      (sortLoop key i l).filter (fun f => key f == v) = l.filter (fun f => key f == v) := by
  intro i
  induction i with
  | zero => intro l; rfl
  | succ i ih =>
    intro l
    rw [sortLoop_succ, ih (sortPass key (i + 1) l), sortPass_filter]

theorem getElem_of_get? (l : List FnInfo) (n : Nat) (x : FnInfo)
    (hn : n < l.length) (h : l.get? n = some x) : l[n] = x := by
  rw [List.get?_eq_getElem?, List.getElem?_eq_getElem hn] at h
  exact (Option.some.injEq _ _).mp h

theorem mem_take_of_get? (l : List FnInfo) (n : Nat) (x : FnInfo)
    (h : l.get? n = some x) : x ∈ l.take (n + 1) := by
  apply List.get?_mem (n := n)
  rw [List.get?_take (Nat.lt_succ_self n)]
  exact h

theorem sortLoop_sorted (key : FnInfo → Nat) :
    ∀ (i : Nat) (l : List FnInfo),
      (∀ x ∈ l.take (i + 1), ∀ y ∈ l.drop (i + 1), key y ≤ key x) →
      (l.drop (i + 1)).Pairwise (fun a b => key b ≤ key a) →
      (sortLoop key i l).Pairwise (fun a b => key b ≤ key a) := by
  intro i
  induction i with
  | zero =>
    intro l h1 h2
    cases l with
    | nil => exact List.Pairwise.nil
    | cons a t =>
      apply List.pairwise_cons.mpr
      constructor
      · intro y hy
        exact h1 a (by simp) y hy
      · exact h2
  | succ i ih =>
    intro l h1 h2
    rw [sortLoop_succ]
    have hperm : (sortPass key (i + 1) l).Perm l := sortPass_perm key (i + 1) l
    have hdrop : (sortPass key (i + 1) l).drop (i + 2) = l.drop (i + 2) :=
      sortPass_drop key (i + 1) l
    have htakeperm : ((sortPass key (i + 1) l).take (i + 2)).Perm (l.take (i + 2)) := by
      apply (List.perm_append_right_iff (l.drop (i + 2))).mp
      conv_lhs => rw [← hdrop]
      rw [List.take_append_drop, List.take_append_drop]
      exact hperm
    cases hg : (sortPass key (i + 1) l).get? (i + 1) with
    | none =>
      have hlen : (sortPass key (i + 1) l).length ≤ i + 1 := List.get?_eq_none.mp hg
      have hnil : (sortPass key (i + 1) l).drop (i + 1) = [] := List.drop_eq_nil_of_le hlen
      apply ih
      · intro x hx y hy
        rw [Nat.add_comm i 1] at hnil
        rw [List.drop_eq_nil_of_le (by omega)] at hy
        exact absurd hy (List.not_mem_nil y)
      · rw [List.drop_eq_nil_of_le (by omega)]
        exact List.Pairwise.nil
    | some fx =>
      have hlt : i + 1 < (sortPass key (i + 1) l).length :=
        lt_length_of_get? _ _ _ hg
      have hdrop1 : (sortPass key (i + 1) l).drop (i + 1)
          = fx :: l.drop (i + 2) := by
        rw [List.drop_eq_getElem_cons hlt, getElem_of_get? _ _ _ hlt hg, hdrop]
      have hfxtake : fx ∈ l.take (i + 2) :=
        htakeperm.subset (mem_take_of_get? _ _ _ hg)
      apply ih
      · intro x hx y hy
        rw [hdrop1] at hy
        have hx2 : x ∈ l.take (i + 2) := by
          apply htakeperm.subset
          exact List.Sublist.subset (List.take_sublist_take_left _ (by omega)) hx
        rcases List.mem_cons.mp hy with rfl | hy2
        · exact sortPass_min key (i + 1) l y hg x hx2
        · exact h1 x hx2 y hy2
      · rw [hdrop1]
        apply List.pairwise_cons.mpr
        constructor
        · intro y hy
          exact h1 fx hfxtake y hy
        · exact h2

theorem sortLoop_full (key : FnInfo → Nat) (l : List FnInfo) :
    (sortLoop key (l.length - 1) l).Pairwise (fun a b => key b ≤ key a) ∧
    (sortLoop key (l.length - 1) l).Perm l ∧
    ∀ v, (sortLoop key (l.length - 1) l).filter (fun f => key f == v)
      = l.filter (fun f => key f == v) := by
  refine ⟨?_, sortLoop_perm key _ l, fun v => sortLoop_filter key v _ l⟩
  apply sortLoop_sorted
  · intro x hx y hy
    rw [List.drop_eq_nil_of_le (by omega)] at hy
    exact absurd hy (List.not_mem_nil y)
  · rw [List.drop_eq_nil_of_le (by omega)]
    exact List.Pairwise.nil

/-- Claim C4, counterexample: for the empty record list, neither sort
routine produces an ordering at all — with `count = 0` the loop bound
`count - 1` underflows to `0xFFFFFFFF` in `uint32_t` arithmetic, the loop
body runs and dereferences the NULL `firstFunctionInfo` (undefined
behaviour, modelled `none`). -/
theorem claim_C4_counterexample :
    sortForDeepest [] = none ∧ sortForOwn [] = none :=
  ⟨rfl, rfl⟩

/-- Claim C4 (amended): for every nonempty list of function records and
both sort keys, ranking succeeds and orders the records by descending key
value — the output is pairwise non-increasing in the key, a permutation of
the input, and for every key value the records holding that value appear
in exactly their original discovery order (the per-value filters of input
and output coincide), i.e. the sort is stable.  On the empty list the C
code instead underflows its loop bound and dereferences NULL. -/
theorem claim_C4_sorts_descending_and_stable :
    ∀ l : List FnInfo, l ≠ [] →
      (∃ out, sortForDeepest l = some out ∧
        out.Pairwise (fun a b => b.deepest ≤ a.deepest) ∧
        out.Perm l ∧
        (∀ v, out.filter (fun f => f.deepest == v) = l.filter (fun f => f.deepest == v))) ∧
      (∃ out, sortForOwn l = some out ∧
        out.Pairwise (fun a b => b.ownStack ≤ a.ownStack) ∧
        out.Perm l ∧
        (∀ v, out.filter (fun f => f.ownStack == v) = l.filter (fun f => f.ownStack == v))) := by
  intro l hne
  match l with
  | [] => exact absurd rfl hne
  | a :: t =>
    constructor
    · refine ⟨sortLoop (fun f => f.deepest) ((a :: t).length - 1) (a :: t), rfl, ?_⟩
      obtain ⟨h1, h2, h3⟩ := sortLoop_full (fun f => f.deepest) (a :: t)
      exact ⟨h1, h2, h3⟩
    · refine ⟨sortLoop (fun f => f.ownStack) ((a :: t).length - 1) (a :: t), rfl, ?_⟩
      obtain ⟨h1, h2, h3⟩ := sortLoop_full (fun f => f.ownStack) (a :: t)
      exact ⟨h1, h2, h3⟩

/-- Witness for the amended C4 on the concrete tied-key list `c4List`,
together with the evaluated outputs: by `deepest` the order is
`b, d, c, a` (the tied `b`/`d` keep discovery order), by `ownStack` it is
`d, b, a, c` (the tied `a`/`c` keep discovery order). -/
theorem claim_C4_witness :
    ((∃ out, sortForDeepest c4List = some out ∧
        out.Pairwise (fun a b => b.deepest ≤ a.deepest) ∧
        out.Perm c4List ∧
        (∀ v, out.filter (fun f => f.deepest == v)
          = c4List.filter (fun f => f.deepest == v))) ∧
      (∃ out, sortForOwn c4List = some out ∧
        out.Pairwise (fun a b => b.ownStack ≤ a.ownStack) ∧
        out.Perm c4List ∧
        (∀ v, out.filter (fun f => f.ownStack == v)
          = c4List.filter (fun f => f.ownStack == v)))) ∧
    (sortForDeepest c4List).map (fun out => out.map (fun f => f.name)) =
      some [("b").toList, ("d").toList, ("c").toList, ("a").toList] ∧
    (sortForOwn c4List).map (fun out => out.map (fun f => f.name)) =
      some [("d").toList, ("b").toList, ("a").toList, ("c").toList] :=
  ⟨claim_C4_sorts_descending_and_stable c4List (by decide), by decide, by decide⟩

theorem pSum_congr (s s' : List FnInfo) (P : Finset Nat)
    (h : ∀ j, ownAt s' j = ownAt s j) : pSum s' P = pSum s P :=
  Finset.sum_congr rfl (fun j _ => h j)

theorem totOwn_congr (s s' : List FnInfo) (hlen : s'.length = s.length)
    (h : ∀ j, ownAt s' j = ownAt s j) : totOwn s' = totOwn s := by
  unfold totOwn
  rw [hlen]
  exact Finset.sum_congr rfl (fun j _ => h j)

theorem mSum_congr (s s' : List FnInfo) (hlen : s'.length = s.length)
    (hp : ∀ j, pAt s' j = pAt s j) (h : ∀ j, ownAt s' j = ownAt s j) :
    mSum s' = mSum s := by
  unfold mSum
  rw [hlen]
  exact Finset.sum_congr rfl (fun j _ => by rw [hp j, h j])

theorem mSum_le_totOwn (s : List FnInfo) : mSum s ≤ totOwn s := by
  unfold mSum totOwn
  apply Finset.sum_le_sum
  intro j _
  split
  · exact Nat.le_refl _
  · exact Nat.zero_le _

theorem pSum_insert (s : List FnInfo) (P : Finset Nat) (i : Nat) (h : i ∉ P) :
    pSum s (insert i P) = ownAt s i + pSum s P := by
  unfold pSum
  exact Finset.sum_insert h

theorem mSum_set_mark (s : List FnInfo) (i : Nat) (f : FnInfo)
    (hfi : s.get? i = some f) (hp : f.isProcessed = false) :
    mSum (s.set i { f with isProcessed := true }) = mSum s + ownAt s i := by
  have hi : i < s.length := lt_length_of_get? s i f hfi
  have hlen : (s.set i { f with isProcessed := true }).length = s.length :=
    List.length_set s i _
  have hmem : i ∈ Finset.range s.length := Finset.mem_range.mpr hi
  unfold mSum
  rw [hlen]
  rw [← Finset.add_sum_erase _ _ hmem, ← Finset.add_sum_erase _ _ hmem]
  have herase : ∑ j in (Finset.range s.length).erase i,
      (if pAt (s.set i { f with isProcessed := true }) j
        then ownAt (s.set i { f with isProcessed := true }) j else 0) =
      ∑ j in (Finset.range s.length).erase i, (if pAt s j then ownAt s j else 0) := by
    apply Finset.sum_congr rfl
    intro j hj
    have hji : j ≠ i := Finset.ne_of_mem_erase hj
    have hget : (s.set i { f with isProcessed := true }).get? j = s.get? j :=
      get?_set_ne' s i j _ hji
    rw [pAt_eq_of_get? s _ j hget]
    unfold ownAt
    rw [hget]
  rw [herase]
  have hpi : pAt (s.set i { f with isProcessed := true }) i = true := by
    rw [pAt_set_self s i _ hi]
  have hoi : ownAt (s.set i { f with isProcessed := true }) i = ownAt s i := by
    unfold ownAt
    rw [get?_set_self s i _ hi, hfi]
    rfl
  rw [hpi, hoi]
  have hps : pAt s i = false := by
    unfold pAt
    rw [hfi]
    exact hp
  rw [hps]
  simp only [if_true, Bool.false_eq_true, if_false, Nat.zero_add]
  omega

theorem get?_some_of_pAt (s : List FnInfo) (i : Nat) (h : pAt s i = true) :
    ∃ f, s.get? i = some f ∧ f.isProcessed = true := by
  unfold pAt at h
  cases hfi : s.get? i with
  | none => rw [hfi] at h; exact Bool.noConfusion h
  | some f =>
    rw [hfi] at h
    exact ⟨f, rfl, h⟩

theorem setmax_length (s1 : List FnInfo) (i v : Nat) (f : FnInfo) :
    (if f.deepest < v then s1.set i { f with deepest := v } else s1).length = s1.length := by
  split
  · exact List.length_set s1 i _
  · rfl

theorem setmax_pAt (s1 : List FnInfo) (i v : Nat) (f : FnInfo)
    (hf : s1.get? i = some f) (j : Nat) :
    pAt (if f.deepest < v then s1.set i { f with deepest := v } else s1) j = pAt s1 j := by
  split
  · by_cases hj : j = i
    · subst hj
      rw [pAt_set_self _ _ _ (lt_length_of_get? _ _ _ hf)]
      unfold pAt
      rw [hf]
      rfl
    · rw [pAt_eq_of_get? s1 _ j (get?_set_ne' s1 i j _ hj)]
  · rfl

theorem setmax_ownAt (s1 : List FnInfo) (i v : Nat) (f : FnInfo)
    (hf : s1.get? i = some f) (j : Nat) :
    ownAt (if f.deepest < v then s1.set i { f with deepest := v } else s1) j = ownAt s1 j := by
  split
  · exact ownAt_of_skelAt s1 _ j (skelAt_set_of s1 i { f with deepest := v } f hf rfl j)
  · rfl

theorem setmax_dAt_ne (s1 : List FnInfo) (i v : Nat) (f : FnInfo)
    (j : Nat) (hj : j ≠ i) :
    dAt (if f.deepest < v then s1.set i { f with deepest := v } else s1) j = dAt s1 j := by
  split
  · exact dAt_eq_of_get? s1 _ j (get?_set_ne' s1 i j _ hj)
  · rfl

theorem setmax_dAt_self (s1 : List FnInfo) (i v : Nat) (f : FnInfo)
    (hf : s1.get? i = some f) :
    dAt (if f.deepest < v then s1.set i { f with deepest := v } else s1) i = dAt s1 i ∨
    dAt (if f.deepest < v then s1.set i { f with deepest := v } else s1) i = v := by
  split
  · right
    rw [dAt_set_self _ _ _ (lt_length_of_get? _ _ _ hf)]
  · left
    rfl

theorem psiE (fuel : Nat)
    (hR : ∀ s i out, resolve fuel s i = some out → ∀ P : Finset Nat,
      (∀ k ∈ P, pAt s k = true) → totOwn s < M32 → PsiInv s P → ThetaInv s P →
      PsiInv out.1 P ∧ ThetaInv out.1 P ∧ out.2.2 + pSum out.1 P ≤ mSum out.1) :
    ∀ (l : List Nat) (s : List FnInfo) (i : Nat) out,
      resolveEdgesWith (fun s' j => resolve fuel s' j) s i l = some out →
      ∀ P : Finset Nat, i ∈ P → (∀ k ∈ P, pAt s k = true) → totOwn s < M32 →
      PsiInv s P → ThetaInv s P → PsiInv out.1 P ∧ ThetaInv out.1 P := by
  intro l
  induction l with
  | nil =>
    intro s i out h P hiP hPm htot hPsi hTheta
    rw [resolveEdgesWith_nil] at h
    rw [Option.some.injEq] at h
    rw [← h]
    exact ⟨hPsi, hTheta⟩
  | cons a rest ih =>
    intro s i out h P hiP hPm htot hPsi hTheta
    obtain ⟨f, hfi, hfp⟩ := get?_some_of_pAt s i (hPm i hiP)
    cases hfa : findFunctionByAddress s a with
    | none =>
      rw [resolveEdgesWith_cons_unresolved _ s i a rest f hfa hfi] at h
      cases hrest : resolveEdgesWith (fun s' j => resolve fuel s' j) s i rest with
      | none => rw [hrest] at h; exact Option.noConfusion h
      | some out' =>
        rw [hrest] at h
        rw [Option.map_some', Option.some.injEq] at h
        rw [← h]
        exact ih s i out' hrest P hiP hPm htot hPsi hTheta
    | some j =>
      cases hres : resolve fuel s j with
      | none =>
        rw [resolveEdgesWith_cons_fail _ s i a rest j hfa hres] at h
        exact Option.noConfusion h
      | some r1 =>
        obtain ⟨s1, log1, v⟩ := r1
        have hRres := hR s j _ hres P hPm htot hPsi hTheta
        obtain ⟨hPsi1, hTheta1, hv1⟩ := hRres
        have hB := basicR fuel s j _ hres
        obtain ⟨hlen1, hskel1, hm1, hmono1, hu1, _, _⟩ := hB
        have hown1 : ∀ k, ownAt s1 k = ownAt s k :=
          fun k => ownAt_of_skelAt s s1 k (hskel1 k)
        have htot1 : totOwn s1 = totOwn s := totOwn_congr s s1 hlen1 hown1
        have hPm1 : ∀ k ∈ P, pAt s1 k = true := fun k hk => hmono1 k (hPm k hk)
        obtain ⟨f1, hfi1, _⟩ := get?_some_of_pAt s1 i (hPm1 i hiP)
        rw [resolveEdgesWith_cons_resolved _ s i a rest j s1 log1 v f1 hfa hres hfi1] at h
        cases hrest : resolveEdgesWith (fun s' j => resolve fuel s' j)
            (if f1.deepest < v then s1.set i { f1 with deepest := v } else s1) i rest with
        | none => rw [hrest] at h; exact Option.noConfusion h
        | some out' =>
          rw [hrest] at h
          rw [Option.map_some', Option.some.injEq] at h
          rw [← h]
          have hlen2 := setmax_length s1 i v f1
          have hp2 := setmax_pAt s1 i v f1 hfi1
          have ho2 := setmax_ownAt s1 i v f1 hfi1
          have hmSum2 : mSum (if f1.deepest < v then s1.set i { f1 with deepest := v }
              else s1) = mSum s1 := mSum_congr s1 _ hlen2 hp2 ho2
          have hpSum2 : pSum (if f1.deepest < v then s1.set i { f1 with deepest := v }
              else s1) P = pSum s1 P := pSum_congr s1 _ P ho2
          have htot2 : totOwn (if f1.deepest < v then s1.set i { f1 with deepest := v }
              else s1) = totOwn s1 := totOwn_congr s1 _ hlen2 ho2
          have hPsi2 : PsiInv (if f1.deepest < v then s1.set i { f1 with deepest := v }
              else s1) P := by
            intro k
            rw [hmSum2, hpSum2]
            by_cases hk : k = i
            · subst hk
              rcases setmax_dAt_self s1 k v f1 hfi1 with hd | hd
              · rw [hd]; exact hPsi1 k
              · rw [hd]
                exact hv1
            · rw [setmax_dAt_ne s1 i v f1 k hk]
              exact hPsi1 k
          have hTheta2 : ThetaInv (if f1.deepest < v then s1.set i { f1 with deepest := v }
              else s1) P := by
            intro k hkP hkp
            have hki : k ≠ i := fun he => hkP (he ▸ hiP)
            rw [ho2 k, setmax_dAt_ne s1 i v f1 k hki]
            exact hTheta1 k hkP (by rw [← hp2 k]; exact hkp)
          exact ih _ i out' hrest P hiP
            (fun k hk => by rw [hp2 k]; exact hPm1 k hk)
            (by rw [htot2, htot1]; exact htot)
            hPsi2 hTheta2

theorem psiR : ∀ (fuel : Nat) (s : List FnInfo) (i : Nat) out,
    resolve fuel s i = some out → ∀ P : Finset Nat,
    (∀ k ∈ P, pAt s k = true) → totOwn s < M32 → PsiInv s P → ThetaInv s P →
    PsiInv out.1 P ∧ ThetaInv out.1 P ∧ out.2.2 + pSum out.1 P ≤ mSum out.1 := by
  intro fuel
  induction fuel with
  | zero =>
    intro s i out h
    exact Option.noConfusion h
  | succ n ih =>
    intro s i out h P hPm htot hPsi hTheta
    cases hfi : s.get? i with
    | none =>
      rw [resolve_invalid n s i hfi] at h
      exact Option.noConfusion h
    | some f =>
      by_cases hp : f.isProcessed = true
      · rw [resolve_marked n s i f hfi hp] at h
        rw [Option.some.injEq] at h
        rw [← h]
        refine ⟨hPsi, hTheta, ?_⟩
        have : f.deepest = dAt s i := by
          unfold dAt
          rw [hfi]
          rfl
        rw [this]
        exact hPsi i
      · have hp' : f.isProcessed = false := by
          cases hpv : f.isProcessed
          · rfl
          · exact absurd hpv hp
        rw [resolve_unmarked n s i f hfi hp'] at h
        have hi : i < s.length := lt_length_of_get? s i f hfi
        have hiP : i ∉ P := by
          intro hmem
          have := hPm i hmem
          unfold pAt at this
          rw [hfi] at this
          simp only [Option.map_some', Option.getD_some] at this
          rw [hp'] at this
          exact Bool.noConfusion this
        have hs1len : (s.set i { f with isProcessed := true }).length = s.length :=
          List.length_set s i _
        have hs1own : ∀ k, ownAt (s.set i { f with isProcessed := true }) k = ownAt s k :=
          fun k => ownAt_of_skelAt s _ k
            (skelAt_set_of s i { f with isProcessed := true } f hfi rfl k)
        have hs1d : ∀ k, dAt (s.set i { f with isProcessed := true }) k = dAt s k := by
          intro k
          by_cases hk : k = i
          · subst hk
            rw [dAt_set_self s k _ hi]
            unfold dAt
            rw [hfi]
            rfl
          · exact dAt_eq_of_get? s _ k (get?_set_ne' s i k _ hk)
        have hs1m : mSum (s.set i { f with isProcessed := true }) = mSum s + ownAt s i :=
          mSum_set_mark s i f hfi hp'
        have hs1tot : totOwn (s.set i { f with isProcessed := true }) = totOwn s :=
          totOwn_congr s _ hs1len hs1own
        have hs1pm : ∀ k ∈ insert i P, pAt (s.set i { f with isProcessed := true }) k
            = true := by
          intro k hk
          rcases Finset.mem_insert.mp hk with rfl | hkP
          · rw [pAt_set_self s k _ hi]
          · have hki : k ≠ i := fun he => hiP (he ▸ hkP)
            rw [pAt_eq_of_get? s _ k (get?_set_ne' s i k _ hki)]
            exact hPm k hkP
        have hs1Psi : PsiInv (s.set i { f with isProcessed := true }) (insert i P) := by
          intro k
          rw [hs1d k, pSum_insert _ _ _ (by
            intro hmem
            exact hiP (by
              have := Finset.mem_insert.mp (Finset.mem_insert_self i P)
              exact hmem)), hs1own i, hs1m]
          have hps : pSum (s.set i { f with isProcessed := true }) P = pSum s P :=
            pSum_congr s _ P hs1own
          rw [hps]
          have := hPsi k
          omega
        have hs1Theta : ThetaInv (s.set i { f with isProcessed := true }) (insert i P) := by
          intro k hk hkp
          have hki : k ≠ i := fun he => hk (he ▸ Finset.mem_insert_self i P)
          have hkP : k ∉ P := fun hmem => hk (Finset.mem_insert_of_mem hmem)
          rw [hs1own k, hs1d k]
          exact hTheta k hkP (by
            rw [pAt_eq_of_get? s _ k (get?_set_ne' s i k _ hki)] at hkp
            exact hkp)
        cases hE : resolveEdgesWith (fun s' j => resolve n s' j)
            (s.set i { f with isProcessed := true }) i f.jumpsTo with
        | none => rw [hE] at h; exact Option.noConfusion h
        | some r2 =>
          obtain ⟨s2, log⟩ := r2
          rw [hE] at h
          dsimp only at h
          have hPsi2andTheta2 := psiE n ih f.jumpsTo
            (s.set i { f with isProcessed := true }) i (s2, log) hE (insert i P)
            (Finset.mem_insert_self i P) hs1pm (by rw [hs1tot]; exact htot)
            hs1Psi hs1Theta
          obtain ⟨hPsi2, hTheta2⟩ := hPsi2andTheta2
          dsimp only at hPsi2 hTheta2
          have hBE := basicE n (basicR n) f.jumpsTo _ i (s2, log) hE
          obtain ⟨hlen2, hskel2, hm2, hmono2, hu2, hg2i⟩ := hBE
          have hown2 : ∀ k, ownAt s2 k = ownAt (s.set i { f with isProcessed := true }) k :=
            fun k => ownAt_of_skelAt _ s2 k (hskel2 k)
          have htot2 : totOwn s2 = totOwn s := by
            rw [totOwn_congr _ s2 hlen2 hown2, hs1tot]
          have hi2 : i < s2.length := by
            rw [hlen2, hs1len]
            exact hi
          cases hg2 : s2.get? i with
          | none =>
            rw [hg2] at h
            exact Option.noConfusion h
          | some f2 =>
            rw [hg2] at h
            dsimp only at h
            rw [Option.some.injEq] at h
            have hd2 : dAt s2 i = f2.deepest := by
              unfold dAt
              rw [hg2]
              rfl
            have ho2 : ownAt s2 i = f2.ownStack := by
              unfold ownAt
              rw [hg2]
              rfl
            have hiP2 : i ∉ P := hiP
            have hkey : f2.deepest + f2.ownStack + pSum s2 P ≤ mSum s2 := by
              have := hPsi2 i
              rw [pSum_insert s2 P i hiP2] at this
              rw [hd2, ho2] at this
              omega
            have hnowrap : f2.deepest + f2.ownStack < M32 := by
              have h1 : mSum s2 ≤ totOwn s2 := mSum_le_totOwn s2
              omega
            have hdval : (f2.deepest + f2.ownStack) % M32 = f2.deepest + f2.ownStack :=
              Nat.mod_eq_of_lt hnowrap
            have houtlen : (s2.set i { f2 with deepest := (f2.deepest + f2.ownStack) % M32
                }).length = s2.length := List.length_set s2 i _
            have houtp : ∀ k, pAt (s2.set i { f2 with deepest :=
                (f2.deepest + f2.ownStack) % M32 }) k = pAt s2 k := by
              intro k
              by_cases hk : k = i
              · subst hk
                rw [pAt_set_self s2 k _ hi2]
                unfold pAt
                rw [hg2]
                rfl
              · exact pAt_eq_of_get? s2 _ k (get?_set_ne' s2 i k _ hk)
            have houto : ∀ k, ownAt (s2.set i { f2 with deepest :=
                (f2.deepest + f2.ownStack) % M32 }) k = ownAt s2 k :=
              fun k => ownAt_of_skelAt s2 _ k (skelAt_set_of s2 i
                { f2 with deepest := (f2.deepest + f2.ownStack) % M32 } f2 hg2 rfl k)
            have houtm : mSum (s2.set i { f2 with deepest :=
                (f2.deepest + f2.ownStack) % M32 }) = mSum s2 :=
              mSum_congr s2 _ houtlen houtp houto
            have houtpsum : pSum (s2.set i { f2 with deepest :=
                (f2.deepest + f2.ownStack) % M32 }) P = pSum s2 P :=
              pSum_congr s2 _ P houto
            have houtd : ∀ k, k ≠ i → dAt (s2.set i { f2 with deepest :=
                (f2.deepest + f2.ownStack) % M32 }) k = dAt s2 k :=
              fun k hk => dAt_eq_of_get? s2 _ k (get?_set_ne' s2 i k _ hk)
            have houtdi : dAt (s2.set i { f2 with deepest :=
                (f2.deepest + f2.ownStack) % M32 }) i = f2.deepest + f2.ownStack := by
              rw [dAt_set_self s2 i _ hi2]
              exact hdval
            rw [← h]
            refine ⟨?_, ?_, ?_⟩
            · intro k
              rw [houtm, houtpsum]
              by_cases hk : k = i
              · subst hk
                rw [houtdi]
                exact hkey
              · rw [houtd k hk]
                have := hPsi2 k
                rw [pSum_insert s2 P i hiP2] at this
                omega
            · intro k hkP hkp
              by_cases hk : k = i
              · subst hk
                rw [houtdi, houto k, ho2]
                omega
              · rw [houto k, houtd k hk]
                rw [houtp k] at hkp
                have hkins : k ∉ insert i P := by
                  intro hmem
                  rcases Finset.mem_insert.mp hmem with rfl | hm
                  · exact hk rfl
                  · exact hkP hm
                exact hTheta2 k hkins hkp
            · rw [houtm, houtpsum]
              dsimp only
              rw [hdval]
              exact hkey

theorem psiPass : ∀ (is : List Nat) (s : List FnInfo) (log : List Diag) out,
    resolvePassGo is s log = some out →
    totOwn s < M32 → PsiInv s ∅ → ThetaInv s ∅ →
    PsiInv out.1 ∅ ∧ ThetaInv out.1 ∅ := by
  intro is
  induction is with
  | nil =>
    intro s log out h htot hPsi hTheta
    unfold resolvePassGo at h
    rw [Option.some.injEq] at h
    rw [← h]
    exact ⟨hPsi, hTheta⟩
  | cons i is ih =>
    intro s log out h htot hPsi hTheta
    unfold resolvePassGo at h
    cases hres : resolve (s.length + 1) s i with
    | none => rw [hres] at h; exact Option.noConfusion h
    | some r =>
      obtain ⟨s1, d, v⟩ := r
      rw [hres] at h
      dsimp only at h
      have hstep := psiR (s.length + 1) s i _ hres ∅
        (fun k hk => absurd hk (Finset.not_mem_empty k)) htot hPsi hTheta
      obtain ⟨hPsi1, hTheta1, _⟩ := hstep
      dsimp only at hPsi1 hTheta1
      have hB := basicR (s.length + 1) s i _ hres
      have htot1 : totOwn s1 = totOwn s :=
        totOwn_congr s s1 hB.1 (fun k => ownAt_of_skelAt s s1 k (hB.2.1 k))
      exact ih s1 (log ++ d) out h (by rw [htot1]; exact htot) hPsi1 hTheta1

/-- Claim C5, counterexample: with the caller's own frame `2 ^ 32 - 1`
bytes and a callee contributing 2, the `uint32_t` addition
`deepest += ownStack` wraps: after the pass the caller's
`deepestStackBytes` is `1`, strictly below its `ownStackBytes`
`4294967295`. -/
theorem claim_C5_counterexample :
    (resolvePass [c5OvA, c5OvB]).map
        (fun x => x.1.map (fun f => (f.deepest, f.ownStack))) =
      some [(1, 4294967295), (2, 2)] ∧ (1 : Nat) < 4294967295 := by
  constructor
  · decide
  · decide

/-- Claim C5 (amended): for every record list as the builder hands it to
the resolution pass (all records unresolved with `deepest = 0`), provided
the total own-stack bytes stay below `2 ^ 32` (no `uint32_t` overflow),
the pass completes and leaves every record with
`deepestStackBytes ≥ ownStackBytes`; the `ownStack` fields themselves are
unchanged by resolution.  Without the overflow bound the inequality fails
(see the counterexample). -/
theorem claim_C5_deepest_ge_own (s : List FnInfo)
    (hinit : ∀ f ∈ s, f.isProcessed = false ∧ f.deepest = 0)
    (htot : totOwn s < M32) :
    ∃ s' log, resolvePass s = some (s', log) ∧
      (∀ i, i < s'.length → ownAt s' i ≤ dAt s' i) ∧
      (∀ i, ownAt s' i = ownAt s i) := by
  have hPsi : PsiInv s ∅ := by
    intro j
    have hd : dAt s j = 0 := by
      unfold dAt
      cases hg : s.get? j with
      | none => rfl
      | some f =>
        have := (hinit f (List.get?_mem hg)).2
        simp [this]
    rw [hd]
    simp only [pSum, Finset.sum_empty, Nat.add_zero]
    exact Nat.zero_le _
  have hTheta : ThetaInv s ∅ := by
    intro j _ hp
    unfold pAt at hp
    cases hg : s.get? j with
    | none => rw [hg] at hp; exact Bool.noConfusion hp
    | some f =>
      rw [hg] at hp
      simp only [Option.map_some', Option.getD_some] at hp
      have := (hinit f (List.get?_mem hg)).1
      rw [this] at hp
      exact Bool.noConfusion hp
  obtain ⟨s', log, hpass, hP, hmarked⟩ := resolvePass_spec s
  have hfin := psiPass (List.range s.length) s [] (s', log) hpass htot hPsi hTheta
  obtain ⟨hPsiF, hThetaF⟩ := hfin
  dsimp only at hPsiF hThetaF
  refine ⟨s', log, hpass, ?_, ?_⟩
  · intro i hi
    have hi' : i < s.length := by rw [← hP.1]; exact hi
    exact hThetaF i (Finset.not_mem_empty i) (hmarked i hi')
  · intro i
    exact ownAt_of_skelAt s s' i (hP.2.1 i)

/-- Witness for the amended C5: the acyclic scenario `A` (frame 16,
calls `B`), `B` (frame 8) satisfies the hypotheses, and after the pass
every record's `deepest` dominates its `ownStack`. -/
theorem claim_C5_witness :
    ∃ s' log, resolvePass [acyclicA, acyclicB] = some (s', log) ∧
      (∀ i, i < s'.length → ownAt s' i ≤ dAt s' i) ∧
      (∀ i, ownAt s' i = ownAt [acyclicA, acyclicB] i) :=
  claim_C5_deepest_ge_own [acyclicA, acyclicB] (by decide) (by decide)

/-- Claim C10, counterexample: in the `c10A`/`c10B` cycle the re-entry
into the in-progress `A` returns the partial value `0` (the cyclic edge's
contribution), `A`'s own frame is positive, yet `A`'s final
`deepestStackBytes` is also `0` because `(3 + (2^32 - 3)) % 2^32 = 0` —
the contribution is not strictly smaller than the callee's final value. -/
theorem claim_C10_counterexample :
    resolve 1 c10Mid 0 = some (c10Mid, [], 0) ∧
    (resolvePass [c10A, c10B]).map (fun x => x.1.map (fun f => f.deepest)) =
      some [0, 3] ∧
    0 < c10A.ownStack ∧ ¬ (0 : Nat) < 0 := by
  refine ⟨by decide, by decide, by decide, by decide⟩

/-- Claim C10 (amended): (1) re-entering an in-progress record returns
its current partial `deepest` — `ownStack` not yet added — leaving the
state untouched; (2) the edge loop only ever grows the in-progress
record's `deepest` accumulator, so the value seen at any re-entry is at
most the accumulator's final value `m`; (3) on completion the resolver
computes `deepest = m + ownStack` — `ownStack` added only after all edges
— and, provided total own-stack bytes stay below `2 ^ 32` (the resolver's
arithmetic invariant; without it the addition wraps, see the
counterexample), the final value strictly exceeds `m`, hence every cyclic
contribution, whenever `ownStack` is positive. -/
theorem claim_C10_reentry_below_final :
    (∀ (fuel : Nat) (s : List FnInfo) (i : Nat) (f : FnInfo),
      s.get? i = some f → f.isProcessed = true →
      resolve (fuel + 1) s i = some (s, [], f.deepest)) ∧
    (∀ (fuel : Nat) (l : List Nat) (s : List FnInfo) (i : Nat) out,
      resolveEdges fuel s i l = some out → pAt s i = true → dAt s i ≤ dAt out.1 i) ∧
    (∀ (fuel : Nat) (s : List FnInfo) (i : Nat) (f : FnInfo) out (P : Finset Nat),
      s.get? i = some f → f.isProcessed = false →
      resolve (fuel + 1) s i = some out →
      (∀ k ∈ P, pAt s k = true) → totOwn s < M32 → PsiInv s P → ThetaInv s P →
      ∃ s2 log, resolveEdges fuel (s.set i { f with isProcessed := true }) i f.jumpsTo
          = some (s2, log) ∧
        out.2.2 = dAt s2 i + f.ownStack ∧ f.deepest ≤ dAt s2 i ∧
        (0 < f.ownStack → dAt s2 i < out.2.2)) := by
  refine ⟨?_, ?_, ?_⟩
  · intro fuel s i f hfi hp
    exact resolve_marked fuel s i f hfi hp
  · intro fuel l s i out h hp
    exact ((basicE fuel (basicR fuel) l s i out h).2.2.2.2.2 hp).2
  · intro fuel s i f out P hfi hp' h hPm htot hPsi hTheta
    rw [resolve_unmarked fuel s i f hfi hp'] at h
    have hi : i < s.length := lt_length_of_get? s i f hfi
    have hiP : i ∉ P := by
      intro hmem
      have := hPm i hmem
      unfold pAt at this
      rw [hfi] at this
      simp only [Option.map_some', Option.getD_some] at this
      rw [hp'] at this
      exact Bool.noConfusion this
    have hs1len : (s.set i { f with isProcessed := true }).length = s.length :=
      List.length_set s i _
    have hs1own : ∀ k, ownAt (s.set i { f with isProcessed := true }) k = ownAt s k :=
      fun k => ownAt_of_skelAt s _ k
        (skelAt_set_of s i { f with isProcessed := true } f hfi rfl k)
    have hs1d : ∀ k, dAt (s.set i { f with isProcessed := true }) k = dAt s k := by
      intro k
      by_cases hk : k = i
      · subst hk
        rw [dAt_set_self s k _ hi]
        unfold dAt
        rw [hfi]
        rfl
      · exact dAt_eq_of_get? s _ k (get?_set_ne' s i k _ hk)
    have hs1m : mSum (s.set i { f with isProcessed := true }) = mSum s + ownAt s i :=
      mSum_set_mark s i f hfi hp'
    have hs1tot : totOwn (s.set i { f with isProcessed := true }) = totOwn s :=
      totOwn_congr s _ hs1len hs1own
    have hs1pm : ∀ k ∈ insert i P, pAt (s.set i { f with isProcessed := true }) k
        = true := by
      intro k hk
      rcases Finset.mem_insert.mp hk with rfl | hkP
      · rw [pAt_set_self s k _ hi]
      · have hki : k ≠ i := fun he => hiP (he ▸ hkP)
        rw [pAt_eq_of_get? s _ k (get?_set_ne' s i k _ hki)]
        exact hPm k hkP
    have hs1Psi : PsiInv (s.set i { f with isProcessed := true }) (insert i P) := by
      intro k
      rw [hs1d k, pSum_insert _ _ _ hiP, hs1own i, hs1m]
      have hps : pSum (s.set i { f with isProcessed := true }) P = pSum s P :=
        pSum_congr s _ P hs1own
      rw [hps]
      have := hPsi k
      omega
    have hs1Theta : ThetaInv (s.set i { f with isProcessed := true }) (insert i P) := by
      intro k hk hkp
      have hki : k ≠ i := fun he => hk (he ▸ Finset.mem_insert_self i P)
      have hkP : k ∉ P := fun hmem => hk (Finset.mem_insert_of_mem hmem)
      rw [hs1own k, hs1d k]
      exact hTheta k hkP (by
        rw [pAt_eq_of_get? s _ k (get?_set_ne' s i k _ hki)] at hkp
        exact hkp)
    cases hE : resolveEdgesWith (fun s' j => resolve fuel s' j)
        (s.set i { f with isProcessed := true }) i f.jumpsTo with
    | none => rw [hE] at h; exact Option.noConfusion h
    | some r2 =>
      obtain ⟨s2, log⟩ := r2
      rw [hE] at h
      dsimp only at h
      have hPT2 := psiE fuel (psiR fuel) f.jumpsTo
        (s.set i { f with isProcessed := true }) i (s2, log) hE (insert i P)
        (Finset.mem_insert_self i P) hs1pm (by rw [hs1tot]; exact htot)
        hs1Psi hs1Theta
      obtain ⟨hPsi2, _⟩ := hPT2
      dsimp only at hPsi2
      have hBE := basicE fuel (basicR fuel) f.jumpsTo _ i (s2, log) hE
      have hi2 : i < s2.length := by
        rw [hBE.1, hs1len]
        exact hi
      cases hg2 : s2.get? i with
      | none =>
        rw [hg2] at h
        exact Option.noConfusion h
      | some f2 =>
        rw [hg2] at h
        dsimp only at h
        rw [Option.some.injEq] at h
        have hd2 : dAt s2 i = f2.deepest := by
          unfold dAt
          rw [hg2]
          rfl
        have ho2 : ownAt s2 i = f2.ownStack := by
          unfold ownAt
          rw [hg2]
          rfl
        have hofs : ownAt s i = f.ownStack := by
          unfold ownAt
          rw [hfi]
          rfl
        have hownpres : f2.ownStack = f.ownStack := by
          have h1 : ownAt s2 i = ownAt (s.set i { f with isProcessed := true }) i :=
            ownAt_of_skelAt _ s2 i (hBE.2.1 i)
          rw [← ho2, h1, hs1own i, hofs]
        have hkey : f2.deepest + f2.ownStack + pSum s2 P ≤ mSum s2 := by
          have := hPsi2 i
          rw [pSum_insert s2 P i hiP] at this
          rw [hd2, ho2] at this
          omega
        have htot2 : totOwn s2 = totOwn s := by
          rw [totOwn_congr _ s2 hBE.1
            (fun k => ownAt_of_skelAt _ s2 k (hBE.2.1 k)), hs1tot]
        have hnowrap : f2.deepest + f2.ownStack < M32 := by
          have h1 : mSum s2 ≤ totOwn s2 := mSum_le_totOwn s2
          omega
        have hdval : (f2.deepest + f2.ownStack) % M32 = f2.deepest + f2.ownStack :=
          Nat.mod_eq_of_lt hnowrap
        have hps1 : pAt (s.set i { f with isProcessed := true }) i = true := by
          rw [pAt_set_self s i _ hi]
        have hmono : f.deepest ≤ dAt s2 i := by
          have h1 := (hBE.2.2.2.2.2 hps1).2
          dsimp only at h1
          rw [hs1d i] at h1
          have h2 : dAt s i = f.deepest := by
            unfold dAt
            rw [hfi]
            rfl
          rw [h2] at h1
          exact h1
        refine ⟨s2, log, hE, ?_, hmono, ?_⟩
        · rw [← h]
          dsimp only
          rw [hdval, hd2, hownpres]
        · intro hpos
          rw [← h]
          dsimp only
          rw [hdval, hd2, hownpres]
          omega

/-- Witness for the amended C10 on the acyclic scenario: resolving `A`
(frame 16, one call to `B` of frame 8) from fuel 3 produces 24; the edge
loop leaves the accumulator at `m = 8 = dAt s2 0`, `ownStack` is added
only afterwards (`24 = 8 + 16`), and the final value strictly exceeds the
accumulator. -/
theorem claim_C10_witness :
    ∃ s2 log,
      resolveEdges 2 ([acyclicA, acyclicB].set 0 { acyclicA with isProcessed := true })
          0 acyclicA.jumpsTo = some (s2, log) ∧
      ((([{ acyclicA with deepest := 24, isProcessed := true },
          { acyclicB with deepest := 8, isProcessed := true }], [],
          24) : List FnInfo × List Diag × Nat)).2.2 = dAt s2 0 + acyclicA.ownStack ∧
      acyclicA.deepest ≤ dAt s2 0 ∧
      (0 < acyclicA.ownStack → dAt s2 0 <
        ((([{ acyclicA with deepest := 24, isProcessed := true },
          { acyclicB with deepest := 8, isProcessed := true }], [],
          24) : List FnInfo × List Diag × Nat)).2.2) := by
  apply claim_C10_reentry_below_final.2.2 2 [acyclicA, acyclicB] 0 acyclicA _ ∅
  · decide
  · decide
  · decide
  · intro k hk
    exact absurd hk (Finset.not_mem_empty k)
  · decide
  · intro j
    simp only [pSum, Finset.sum_empty, Nat.add_zero]
    match j with
    | 0 => decide
    | 1 => decide
    | n + 2 =>
      have hg : ([acyclicA, acyclicB] : List FnInfo).get? (n + 2) = none := rfl
      unfold dAt
      rw [hg]
      exact Nat.zero_le _
  · intro j hj hp
    match j with
    | 0 => exact absurd hp (by decide)
    | 1 => exact absurd hp (by decide)
    | n + 2 =>
      have hg : ([acyclicA, acyclicB] : List FnInfo).get? (n + 2) = none := rfl
      unfold pAt at hp
      rw [hg] at hp
      exact Bool.noConfusion hp

theorem rankHyp_congr (s s' : List FnInfo) (rank : Nat → Nat)
    (hlen : s'.length = s.length) (hskel : ∀ j, skelAt s' j = skelAt s j)
    (h : RankHyp s rank) : RankHyp s' rank := by
  intro j hj a ha k hk
  rw [hlen] at hj
  rw [jumpsAt_of_skelAt s s' j (hskel j)] at ha
  rw [findFn_congr s s' hlen hskel a] at hk
  exact h j hj a ha k hk

theorem contribAt_congr (s s' : List FnInfo) (a : Nat)
    (hf : findFunctionByAddress s' a = findFunctionByAddress s a)
    (hd : ∀ k, findFunctionByAddress s a = some k → dAt s' k = dAt s k) :
    contribAt s' a = contribAt s a := by
  unfold contribAt
  rw [hf]
  cases hk : findFunctionByAddress s a with
  | none => rfl
  | some k => exact hd k hk

theorem maxContrib_congr (s s' : List FnInfo) (j : Nat)
    (hj : jumpsAt s' j = jumpsAt s j)
    (hf : ∀ a, findFunctionByAddress s' a = findFunctionByAddress s a)
    (hd : ∀ a ∈ jumpsAt s j, ∀ k, findFunctionByAddress s a = some k → dAt s' k = dAt s k) :
    maxContrib s' j = maxContrib s j := by
  unfold maxContrib
  rw [hj]
  congr 1
  apply List.map_congr_left
  intro a ha
  exact contribAt_congr s s' a (hf a) (hd a ha)

theorem foldl_max_cons (l : List Nat) (b a : Nat) :
    (a :: l).foldl Nat.max b = l.foldl Nat.max (Nat.max b a) := rfl

theorem ite_lt_eq_max (d v : Nat) : (if d < v then v else d) = Nat.max d v := by
  by_cases h1 : d < v
  · rw [if_pos h1]
    exact (Nat.max_eq_right (Nat.le_of_lt h1)).symm
  · rw [if_neg h1]
    exact (Nat.max_eq_left (Nat.le_of_not_lt h1)).symm

theorem setmax_skelAt (s1 : List FnInfo) (i v : Nat) (f : FnInfo)
    (hf : s1.get? i = some f) (j : Nat) :
    skelAt (if f.deepest < v then s1.set i { f with deepest := v } else s1) j
      = skelAt s1 j := by
  split
  · exact skelAt_set_of s1 i { f with deepest := v } f hf rfl j
  · rfl

theorem setmax_dAt_self_eq (s1 : List FnInfo) (i v : Nat) (f : FnInfo)
    (hf : s1.get? i = some f) :
    dAt (if f.deepest < v then s1.set i { f with deepest := v } else s1) i
      = Nat.max (dAt s1 i) v := by
  have hd1 : dAt s1 i = f.deepest := by
    unfold dAt
    rw [hf]
    rfl
  rw [hd1]
  by_cases h1 : f.deepest < v
  · rw [if_pos h1, dAt_set_self s1 i _ (lt_length_of_get? s1 i f hf)]
    exact (Nat.max_eq_right (Nat.le_of_lt h1)).symm
  · rw [if_neg h1, hd1]
    exact (Nat.max_eq_left (Nat.le_of_not_lt h1)).symm

theorem allResolve_congr (s s' : List FnInfo)
    (hlen : s'.length = s.length) (hskel : ∀ j, skelAt s' j = skelAt s j)
    (h : AllResolve s) : AllResolve s' := by
  intro j hj a ha
  rw [hlen] at hj
  rw [jumpsAt_of_skelAt s s' j (hskel j)] at ha
  rw [findFn_congr s s' hlen hskel a]
  exact h j hj a ha

theorem goodInsert (s : List FnInfo) (P : Finset Nat) (i : Nat)
    (hpi : pAt s i = false) (hG : GoodInv s P) (hC : GoodClosed s P) :
    GoodInv s (insert i P) ∧ GoodClosed s (insert i P) := by
  constructor
  · intro j hj hpj hjP
    exact hG j hj hpj (fun hm => hjP (Finset.mem_insert_of_mem hm))
  · intro j hj hpj hjP a ha k hk
    obtain ⟨hpk, hkP⟩ := hC j hj hpj (fun hm => hjP (Finset.mem_insert_of_mem hm)) a ha k hk
    refine ⟨hpk, ?_⟩
    intro hm
    rcases Finset.mem_insert.mp hm with rfl | hm2
    · rw [hpi] at hpk
      exact Bool.noConfusion hpk
    · exact hkP hm2

theorem goodStep (s s' : List FnInfo) (P : Finset Nat)
    (hlen : s'.length = s.length)
    (hskel : ∀ j, skelAt s' j = skelAt s j)
    (hpmono : ∀ j, pAt s j = true → pAt s' j = true)
    (hnew : ∀ j, pAt s' j = true → j ∉ P → pAt s j = true)
    (hkeep : ∀ j, pAt s j = true → j ∉ P → s'.get? j = s.get? j)
    (hG : GoodInv s P) (hC : GoodClosed s P) :
    GoodInv s' P ∧ GoodClosed s' P := by
  have hfind : ∀ a, findFunctionByAddress s' a = findFunctionByAddress s a :=
    findFn_congr s s' hlen hskel
  constructor
  · intro j hj hpj hjP
    have hpj0 : pAt s j = true := hnew j hpj hjP
    have hj0 : j < s.length := by rw [← hlen]; exact hj
    have hd : ∀ a ∈ jumpsAt s j, ∀ k, findFunctionByAddress s a = some k →
        dAt s' k = dAt s k := by
      intro a ha k hk
      obtain ⟨hpk, hkP⟩ := hC j hj0 hpj0 hjP a ha k hk
      exact dAt_eq_of_get? s s' k (hkeep k hpk hkP)
    rw [dAt_eq_of_get? s s' j (hkeep j hpj0 hjP), ownAt_of_skelAt s s' j (hskel j),
      maxContrib_congr s s' j (jumpsAt_of_skelAt s s' j (hskel j)) hfind hd]
    exact hG j hj0 hpj0 hjP
  · intro j hj hpj hjP a ha k hk
    have hpj0 : pAt s j = true := hnew j hpj hjP
    have hj0 : j < s.length := by rw [← hlen]; exact hj
    rw [jumpsAt_of_skelAt s s' j (hskel j)] at ha
    rw [hfind a] at hk
    obtain ⟨hpk, hkP⟩ := hC j hj0 hpj0 hjP a ha k hk
    exact ⟨hpmono k hpk, hkP⟩

theorem goodE (fuel : Nat) (rank : Nat → Nat)
    (hR : ∀ s i out, resolve fuel s i = some out → ∀ P : Finset Nat,
      (∀ k ∈ P, pAt s k = true) → totOwn s < M32 → PsiInv s P → ThetaInv s P →
      UnmZero s → GoodInv s P → GoodClosed s P → RankHyp s rank → AllResolve s →
      (∀ k ∈ P, rank i < rank k) →
      GoodInv out.1 P ∧ GoodClosed out.1 P ∧ UnmZero out.1 ∧
      pAt out.1 i = true ∧ i ∉ P ∧ dAt out.1 i = out.2.2) :
    ∀ (l : List Nat) (s : List FnInfo) (i : Nat) out,
      resolveEdgesWith (fun s' j => resolve fuel s' j) s i l = some out →
      ∀ P : Finset Nat, i ∈ P → (∀ k ∈ P, pAt s k = true) → totOwn s < M32 →
      PsiInv s P → ThetaInv s P → UnmZero s → GoodInv s P → GoodClosed s P →
      RankHyp s rank → AllResolve s →
      (∀ k ∈ P, k ≠ i → rank i < rank k) →
      (∀ a ∈ l, ∀ k, findFunctionByAddress s a = some k → rank k < rank i) →
      GoodInv out.1 P ∧ GoodClosed out.1 P ∧ UnmZero out.1 ∧
      dAt out.1 i = (l.map (contribAt out.1)).foldl Nat.max (dAt s i) ∧
      (∀ a ∈ l, ∀ k, findFunctionByAddress out.1 a = some k →
        pAt out.1 k = true ∧ k ∉ P) := by
  intro l
  induction l with
  | nil =>
    intro s i out h P hiP hPm htot hPsi hTheta hUnm hG hC hRk hAR hrankP hEdge
    rw [resolveEdgesWith_nil] at h
    rw [Option.some.injEq] at h
    rw [← h]
    refine ⟨hG, hC, hUnm, rfl, ?_⟩
    intro a ha
    exact absurd ha (List.not_mem_nil a)
  | cons a rest ih =>
    intro s i out h P hiP hPm htot hPsi hTheta hUnm hG hC hRk hAR hrankP hEdge
    obtain ⟨f, hfi, hfp⟩ := get?_some_of_pAt s i (hPm i hiP)
    cases hfa : findFunctionByAddress s a with
    | none =>
      rw [resolveEdgesWith_cons_unresolved _ s i a rest f hfa hfi] at h
      cases hrest : resolveEdgesWith (fun s' j => resolve fuel s' j) s i rest with
      | none => rw [hrest] at h; exact Option.noConfusion h
      | some out' =>
        rw [hrest] at h
        rw [Option.map_some', Option.some.injEq] at h
        rw [← h]
        have hres := ih s i out' hrest P hiP hPm htot hPsi hTheta hUnm hG hC hRk hAR hrankP
          (fun b hb k hk => hEdge b (List.mem_cons_of_mem a hb) k hk)
        obtain ⟨hG1, hC1, hUnm1, hacc, hCD⟩ := hres
        have hBE := basicE fuel (basicR fuel) rest s i out' hrest
        obtain ⟨hlen1, hskel1, _, _, _, _⟩ := hBE
        have hfa1 : findFunctionByAddress out'.1 a = none := by
          rw [findFn_congr s out'.1 hlen1 hskel1 a]
          exact hfa
        refine ⟨hG1, hC1, hUnm1, ?_, ?_⟩
        · rw [List.map_cons, foldl_max_cons]
          have hca : contribAt out'.1 a = 0 := by
            unfold contribAt
            rw [hfa1]
          rw [hca]
          have hm0 : Nat.max (dAt s i) 0 = dAt s i := Nat.max_eq_left (Nat.zero_le _)
          rw [hm0]
          exact hacc
        · intro b hb k hk
          rcases List.mem_cons.mp hb with rfl | hb2
          · rw [hfa1] at hk
            exact Option.noConfusion hk
          · exact hCD b hb2 k hk
    | some j =>
      cases hres : resolve fuel s j with
      | none =>
        rw [resolveEdgesWith_cons_fail _ s i a rest j hfa hres] at h
        exact Option.noConfusion h
      | some r1 =>
        obtain ⟨s1, log1, v⟩ := r1
        have hrankChild : ∀ k ∈ P, rank j < rank k := by
          intro k hk
          by_cases hki : k = i
          · rw [hki]
            exact hEdge a (List.mem_cons_self a rest) j hfa
          · exact Nat.lt_trans (hEdge a (List.mem_cons_self a rest) j hfa) (hrankP k hk hki)
        have hRres := hR s j _ hres P hPm htot hPsi hTheta hUnm hG hC hRk hAR hrankChild
        obtain ⟨hG1, hC1, hUnm1, hpj1, hjP, hdj1⟩ := hRres
        have hPsiRres := psiR fuel s j _ hres P hPm htot hPsi hTheta
        obtain ⟨hPsi1, hTheta1, hv1⟩ := hPsiRres
        have hB := basicR fuel s j _ hres
        obtain ⟨hlen1, hskel1, hm1, hmono1, hu1, _, _⟩ := hB
        have hown1 : ∀ k, ownAt s1 k = ownAt s k :=
          fun k => ownAt_of_skelAt s s1 k (hskel1 k)
        have htot1 : totOwn s1 = totOwn s := totOwn_congr s s1 hlen1 hown1
        have hPm1 : ∀ k ∈ P, pAt s1 k = true := fun k hk => hmono1 k (hPm k hk)
        have hd1i : dAt s1 i = dAt s i := dAt_eq_of_get? s s1 i (hm1 i (hPm i hiP))
        obtain ⟨f1, hfi1, _⟩ := get?_some_of_pAt s1 i (hPm1 i hiP)
        rw [resolveEdgesWith_cons_resolved _ s i a rest j s1 log1 v f1 hfa hres hfi1] at h
        cases hrest : resolveEdgesWith (fun s' j => resolve fuel s' j)
            (if f1.deepest < v then s1.set i { f1 with deepest := v } else s1) i rest with
        | none => rw [hrest] at h; exact Option.noConfusion h
        | some out' =>
          rw [hrest] at h
          rw [Option.map_some', Option.some.injEq] at h
          rw [← h]
          have hlen2 := setmax_length s1 i v f1
          have hp2 := setmax_pAt s1 i v f1 hfi1
          have ho2 := setmax_ownAt s1 i v f1 hfi1
          have hsk2 := setmax_skelAt s1 i v f1 hfi1
          have hmSum2 : mSum (if f1.deepest < v then s1.set i { f1 with deepest := v }
              else s1) = mSum s1 := mSum_congr s1 _ hlen2 hp2 ho2
          have hpSum2 : pSum (if f1.deepest < v then s1.set i { f1 with deepest := v }
              else s1) P = pSum s1 P := pSum_congr s1 _ P ho2
          have htot2 : totOwn (if f1.deepest < v then s1.set i { f1 with deepest := v }
              else s1) = totOwn s1 := totOwn_congr s1 _ hlen2 ho2
          have hPsi2 : PsiInv (if f1.deepest < v then s1.set i { f1 with deepest := v }
              else s1) P := by
            intro k
            rw [hmSum2, hpSum2]
            by_cases hk : k = i
            · subst hk
              rcases setmax_dAt_self s1 k v f1 hfi1 with hd | hd
              · rw [hd]; exact hPsi1 k
              · rw [hd]
                exact hv1
            · rw [setmax_dAt_ne s1 i v f1 k hk]
              exact hPsi1 k
          have hTheta2 : ThetaInv (if f1.deepest < v then s1.set i { f1 with deepest := v }
              else s1) P := by
            intro k hkP hkp
            have hki : k ≠ i := fun he => hkP (he ▸ hiP)
            rw [ho2 k, setmax_dAt_ne s1 i v f1 k hki]
            exact hTheta1 k hkP (by rw [← hp2 k]; exact hkp)
          have hUnm2 : UnmZero (if f1.deepest < v then s1.set i { f1 with deepest := v }
              else s1) := by
            intro k hk
            have hk1 : pAt s1 k = false := by rw [← hp2 k]; exact hk
            have hki : k ≠ i := by
              intro he
              rw [he, hPm1 i hiP] at hk1
              exact Bool.noConfusion hk1
            rw [setmax_dAt_ne s1 i v f1 k hki]
            exact hUnm1 k hk1
          have hkeep2 : ∀ k, pAt s1 k = true → k ∉ P →
              (if f1.deepest < v then s1.set i { f1 with deepest := v }
                else s1).get? k = s1.get? k := by
            intro k hpk hkP
            have hki : k ≠ i := fun he => hkP (he ▸ hiP)
            split
            · exact get?_set_ne' s1 i k _ hki
            · rfl
          have hGC2 := goodStep s1
            (if f1.deepest < v then s1.set i { f1 with deepest := v } else s1) P hlen2 hsk2
            (fun k hk => by rw [hp2 k]; exact hk)
            (fun k hk _ => by rw [← hp2 k]; exact hk)
            hkeep2 hG1 hC1
          have hRk2 : RankHyp (if f1.deepest < v then s1.set i { f1 with deepest := v }
              else s1) rank :=
            rankHyp_congr s1 _ rank hlen2 hsk2 (rankHyp_congr s s1 rank hlen1 hskel1 hRk)
          have hAR2 : AllResolve (if f1.deepest < v then s1.set i { f1 with deepest := v }
              else s1) :=
            allResolve_congr s1 _ hlen2 hsk2 (allResolve_congr s s1 hlen1 hskel1 hAR)
          have hfind2 : ∀ b, findFunctionByAddress
              (if f1.deepest < v then s1.set i { f1 with deepest := v } else s1) b =
              findFunctionByAddress s b := by
            intro b
            rw [findFn_congr s1 _ hlen2 hsk2 b, findFn_congr s s1 hlen1 hskel1 b]
          have hEdge2 : ∀ b ∈ rest, ∀ k, findFunctionByAddress
              (if f1.deepest < v then s1.set i { f1 with deepest := v } else s1) b =
              some k → rank k < rank i := by
            intro b hb k hk
            rw [hfind2 b] at hk
            exact hEdge b (List.mem_cons_of_mem a hb) k hk
          have hPm2 : ∀ k ∈ P, pAt (if f1.deepest < v then s1.set i
              { f1 with deepest := v } else s1) k = true :=
            fun k hk => by rw [hp2 k]; exact hPm1 k hk
          have ihres := ih _ i out' hrest P hiP hPm2
            (by rw [htot2, htot1]; exact htot) hPsi2 hTheta2 hUnm2 hGC2.1 hGC2.2 hRk2 hAR2
            hrankP hEdge2
          obtain ⟨hG3, hC3, hUnm3, hacc, hCD⟩ := ihres
          have hBE := basicE fuel (basicR fuel) rest
            (if f1.deepest < v then s1.set i { f1 with deepest := v } else s1) i out' hrest
          obtain ⟨hlen3, hskel3, hm3, hmono3, _, _⟩ := hBE
          have hskel4 : ∀ k, skelAt out'.1 k = skelAt s k := by
            intro k
            rw [hskel3 k, hsk2 k, hskel1 k]
          have hlen4 : out'.1.length = s.length := by rw [hlen3, hlen2, hlen1]
          have hfa1 : findFunctionByAddress out'.1 a = some j := by
            rw [findFn_congr s out'.1 hlen4 hskel4 a]
            exact hfa
          have hji : j ≠ i := fun he => hjP (he ▸ hiP)
          have hpj2 : pAt (if f1.deepest < v then s1.set i { f1 with deepest := v }
              else s1) j = true := by
            rw [hp2 j]
            exact hpj1
          have hdj3 : dAt out'.1 j = v := by
            rw [dAt_eq_of_get? _ out'.1 j (hm3 j hji hpj2), setmax_dAt_ne s1 i v f1 j hji]
            exact hdj1
          refine ⟨hG3, hC3, hUnm3, ?_, ?_⟩
          · rw [List.map_cons, foldl_max_cons]
            have hca : contribAt out'.1 a = v := by
              unfold contribAt
              rw [hfa1]
              exact hdj3
            rw [hca]
            have hds2 : dAt (if f1.deepest < v then s1.set i { f1 with deepest := v }
                else s1) i = Nat.max (dAt s i) v := by
              rw [setmax_dAt_self_eq s1 i v f1 hfi1, hd1i]
            rw [← hds2]
            exact hacc
          · intro b hb k hk
            rcases List.mem_cons.mp hb with rfl | hb2
            · rw [hfa1, Option.some.injEq] at hk
              rw [← hk]
              exact ⟨hmono3 j hpj2, hjP⟩
            · exact hCD b hb2 k hk

theorem goodR (fuel : Nat) (rank : Nat → Nat) :
    ∀ (s : List FnInfo) (i : Nat) out, resolve fuel s i = some out →
    ∀ P : Finset Nat,
    (∀ k ∈ P, pAt s k = true) → totOwn s < M32 → PsiInv s P → ThetaInv s P →
    UnmZero s → GoodInv s P → GoodClosed s P → RankHyp s rank → AllResolve s →
    (∀ k ∈ P, rank i < rank k) →
    GoodInv out.1 P ∧ GoodClosed out.1 P ∧ UnmZero out.1 ∧
    pAt out.1 i = true ∧ i ∉ P ∧ dAt out.1 i = out.2.2 := by
  induction fuel with
  | zero =>
    intro s i out h
    exact Option.noConfusion h
  | succ n ih =>
    intro s i out h P hPm htot hPsi hTheta hUnm hG hC hRk hAR hrank
    have hiP : i ∉ P := fun hm => absurd (hrank i hm) (Nat.lt_irrefl (rank i))
    cases hfi : s.get? i with
    | none =>
      rw [resolve_invalid n s i hfi] at h
      exact Option.noConfusion h
    | some f =>
      by_cases hp : f.isProcessed = true
      · rw [resolve_marked n s i f hfi hp] at h
        rw [Option.some.injEq] at h
        rw [← h]
        dsimp only
        refine ⟨hG, hC, hUnm, ?_, hiP, ?_⟩
        · unfold pAt
          rw [hfi]
          exact hp
        · unfold dAt
          rw [hfi]
          rfl
      · have hp' : f.isProcessed = false := by
          cases hpv : f.isProcessed
          · rfl
          · exact absurd hpv hp
        rw [resolve_unmarked n s i f hfi hp'] at h
        have hi : i < s.length := lt_length_of_get? s i f hfi
        have hps : pAt s i = false := by
          unfold pAt
          rw [hfi]
          exact hp'
        have hs1len : (s.set i { f with isProcessed := true }).length = s.length :=
          List.length_set s i _
        have hs1skel : ∀ k, skelAt (s.set i { f with isProcessed := true }) k = skelAt s k :=
          skelAt_set_of s i { f with isProcessed := true } f hfi rfl
        have hs1own : ∀ k, ownAt (s.set i { f with isProcessed := true }) k = ownAt s k :=
          fun k => ownAt_of_skelAt s _ k (hs1skel k)
        have hs1tot : totOwn (s.set i { f with isProcessed := true }) = totOwn s :=
          totOwn_congr s _ hs1len hs1own
        have hs1m : mSum (s.set i { f with isProcessed := true }) = mSum s + ownAt s i :=
          mSum_set_mark s i f hfi hp'
        have hs1d : ∀ k, dAt (s.set i { f with isProcessed := true }) k = dAt s k := by
          intro k
          by_cases hk : k = i
          · subst hk
            rw [dAt_set_self s k _ hi]
            unfold dAt
            rw [hfi]
            rfl
          · exact dAt_eq_of_get? s _ k (get?_set_ne' s i k _ hk)
        have hs1pm : ∀ k ∈ insert i P, pAt (s.set i { f with isProcessed := true }) k
            = true := by
          intro k hk
          rcases Finset.mem_insert.mp hk with rfl | hkP
          · rw [pAt_set_self s k _ hi]
          · have hki : k ≠ i := fun he => hiP (he ▸ hkP)
            rw [pAt_eq_of_get? s _ k (get?_set_ne' s i k _ hki)]
            exact hPm k hkP
        have hs1Psi : PsiInv (s.set i { f with isProcessed := true }) (insert i P) := by
          intro k
          rw [hs1d k, pSum_insert _ _ _ hiP, hs1own i, hs1m]
          have hps' : pSum (s.set i { f with isProcessed := true }) P = pSum s P :=
            pSum_congr s _ P hs1own
          rw [hps']
          have := hPsi k
          omega
        have hs1Theta : ThetaInv (s.set i { f with isProcessed := true }) (insert i P) := by
          intro k hk hkp
          have hki : k ≠ i := fun he => hk (he ▸ Finset.mem_insert_self i P)
          have hkP : k ∉ P := fun hmem => hk (Finset.mem_insert_of_mem hmem)
          rw [hs1own k, hs1d k]
          exact hTheta k hkP (by
            rw [pAt_eq_of_get? s _ k (get?_set_ne' s i k _ hki)] at hkp
            exact hkp)
        have hUnm1 : UnmZero (s.set i { f with isProcessed := true }) := by
          intro k hk
          have hki : k ≠ i := by
            intro he
            rw [he, pAt_set_self s i _ hi] at hk
            exact Bool.noConfusion hk
          rw [pAt_eq_of_get? s _ k (get?_set_ne' s i k _ hki)] at hk
          rw [hs1d k]
          exact hUnm k hk
        have hGins := goodInsert s P i hps hG hC
        have hGC1 := goodStep s (s.set i { f with isProcessed := true }) (insert i P)
          hs1len hs1skel
          (fun j hj => by
            by_cases hji : j = i
            · subst hji
              rw [pAt_set_self s j _ hi]
            · rw [pAt_eq_of_get? s _ j (get?_set_ne' s i j _ hji)]
              exact hj)
          (fun j hj hjP => by
            have hji : j ≠ i := fun he => hjP (he ▸ Finset.mem_insert_self i P)
            rw [pAt_eq_of_get? s _ j (get?_set_ne' s i j _ hji)] at hj
            exact hj)
          (fun j _ hjP =>
            get?_set_ne' s i j _ (fun he => hjP (he ▸ Finset.mem_insert_self i P)))
          hGins.1 hGins.2
        have hRk1 : RankHyp (s.set i { f with isProcessed := true }) rank :=
          rankHyp_congr s _ rank hs1len hs1skel hRk
        have hAR1 : AllResolve (s.set i { f with isProcessed := true }) :=
          allResolve_congr s _ hs1len hs1skel hAR
        have hja : jumpsAt s i = f.jumpsTo := by
          unfold jumpsAt
          rw [hfi]
          rfl
        have hEdge1 : ∀ a ∈ f.jumpsTo, ∀ k,
            findFunctionByAddress (s.set i { f with isProcessed := true }) a = some k →
            rank k < rank i := by
          intro a ha k hk
          rw [findFn_congr s _ hs1len hs1skel a] at hk
          exact hRk i hi a (by rw [hja]; exact ha) k hk
        have hrankP1 : ∀ k ∈ insert i P, k ≠ i → rank i < rank k := by
          intro k hk hki
          rcases Finset.mem_insert.mp hk with he | hm
          · exact absurd he hki
          · exact hrank k hm
        cases hE : resolveEdgesWith (fun s' j => resolve n s' j)
            (s.set i { f with isProcessed := true }) i f.jumpsTo with
        | none => rw [hE] at h; exact Option.noConfusion h
        | some r2 =>
          obtain ⟨s2, log⟩ := r2
          rw [hE] at h
          dsimp only at h
          have hGE := goodE n rank ih f.jumpsTo
            (s.set i { f with isProcessed := true }) i (s2, log) hE (insert i P)
            (Finset.mem_insert_self i P) hs1pm (by rw [hs1tot]; exact htot)
            hs1Psi hs1Theta hUnm1 hGC1.1 hGC1.2 hRk1 hAR1 hrankP1 hEdge1
          obtain ⟨hG2, hC2, hUnm2, hacc, hCD⟩ := hGE
          dsimp only at hG2 hC2 hUnm2 hacc hCD
          have hPsiTheta2 := psiE n (psiR n) f.jumpsTo
            (s.set i { f with isProcessed := true }) i (s2, log) hE (insert i P)
            (Finset.mem_insert_self i P) hs1pm (by rw [hs1tot]; exact htot)
            hs1Psi hs1Theta
          obtain ⟨hPsi2, hTheta2⟩ := hPsiTheta2
          dsimp only at hPsi2 hTheta2
          have hBE := basicE n (basicR n) f.jumpsTo _ i (s2, log) hE
          obtain ⟨hlen2, hskel2, hm2, hmono2, hu2, hg2i⟩ := hBE
          have hp1i : pAt (s.set i { f with isProcessed := true }) i = true :=
            hs1pm i (Finset.mem_insert_self i P)
          have hg2p : pAt s2 i = true := (hg2i hp1i).1
          have htot2 : totOwn s2 = totOwn s := by
            rw [totOwn_congr _ s2 hlen2 (fun k => ownAt_of_skelAt _ s2 k (hskel2 k)), hs1tot]
          have hi2 : i < s2.length := by
            rw [hlen2, hs1len]
            exact hi
          cases hg2 : s2.get? i with
          | none =>
            rw [hg2] at h
            exact Option.noConfusion h
          | some f2 =>
            rw [hg2] at h
            dsimp only at h
            rw [Option.some.injEq] at h
            have hd2 : dAt s2 i = f2.deepest := by
              unfold dAt
              rw [hg2]
              rfl
            have ho2 : ownAt s2 i = f2.ownStack := by
              unfold ownAt
              rw [hg2]
              rfl
            have hkey : f2.deepest + f2.ownStack + pSum s2 P ≤ mSum s2 := by
              have h0 := hPsi2 i
              rw [pSum_insert s2 P i hiP] at h0
              rw [hd2, ho2] at h0
              omega
            have hnowrap : f2.deepest + f2.ownStack < M32 := by
              have h1 : mSum s2 ≤ totOwn s2 := mSum_le_totOwn s2
              omega
            have hdval : (f2.deepest + f2.ownStack) % M32 = f2.deepest + f2.ownStack :=
              Nat.mod_eq_of_lt hnowrap
            have hd1i : dAt (s.set i { f with isProcessed := true }) i = 0 := by
              rw [hs1d i]
              have hfd : f.deepest = dAt s i := by
                unfold dAt
                rw [hfi]
                rfl
              exact hUnm i hps
            have hj2 : jumpsAt s2 i = f.jumpsTo := by
              rw [jumpsAt_of_skelAt _ s2 i (hskel2 i), jumpsAt_of_skelAt s _ i (hs1skel i),
                hja]
            have hmc2 : maxContrib s2 i = f2.deepest := by
              unfold maxContrib
              rw [hj2]
              rw [hd1i] at hacc
              rw [← hacc]
              exact hd2
            have houtlen : (s2.set i { f2 with deepest := (f2.deepest + f2.ownStack) % M32
                }).length = s2.length := List.length_set s2 i _
            have houtskel : ∀ k, skelAt (s2.set i { f2 with deepest :=
                (f2.deepest + f2.ownStack) % M32 }) k = skelAt s2 k :=
              skelAt_set_of s2 i { f2 with deepest := (f2.deepest + f2.ownStack) % M32 }
                f2 hg2 rfl
            have houtp : ∀ k, pAt (s2.set i { f2 with deepest :=
                (f2.deepest + f2.ownStack) % M32 }) k = pAt s2 k := by
              intro k
              by_cases hk : k = i
              · subst hk
                rw [pAt_set_self s2 k _ hi2]
                unfold pAt
                rw [hg2]
                rfl
              · exact pAt_eq_of_get? s2 _ k (get?_set_ne' s2 i k _ hk)
            have houto : ∀ k, ownAt (s2.set i { f2 with deepest :=
                (f2.deepest + f2.ownStack) % M32 }) k = ownAt s2 k :=
              fun k => ownAt_of_skelAt s2 _ k (houtskel k)
            have houtget : ∀ k, k ≠ i → (s2.set i { f2 with deepest :=
                (f2.deepest + f2.ownStack) % M32 }).get? k = s2.get? k :=
              fun k hk => get?_set_ne' s2 i k _ hk
            have houtd : ∀ k, k ≠ i → dAt (s2.set i { f2 with deepest :=
                (f2.deepest + f2.ownStack) % M32 }) k = dAt s2 k :=
              fun k hk => dAt_eq_of_get? s2 _ k (houtget k hk)
            have houtdi : dAt (s2.set i { f2 with deepest :=
                (f2.deepest + f2.ownStack) % M32 }) i = f2.deepest + f2.ownStack := by
              rw [dAt_set_self s2 i _ hi2]
              exact hdval
            have houtfind : ∀ b, findFunctionByAddress (s2.set i { f2 with deepest :=
                (f2.deepest + f2.ownStack) % M32 }) b = findFunctionByAddress s2 b :=
              findFn_congr s2 _ houtlen houtskel
            have hjouti : jumpsAt (s2.set i { f2 with deepest :=
                (f2.deepest + f2.ownStack) % M32 }) i = jumpsAt s2 i :=
              jumpsAt_of_skelAt s2 _ i (houtskel i)
            have hGCout := goodStep s2
              (s2.set i { f2 with deepest := (f2.deepest + f2.ownStack) % M32 })
              (insert i P) houtlen houtskel
              (fun k hk => by rw [houtp k]; exact hk)
              (fun k hk _ => by rw [← houtp k]; exact hk)
              (fun k _ hkP => houtget k (fun he => hkP (he ▸ Finset.mem_insert_self i P)))
              hG2 hC2
            have hmcout : maxContrib (s2.set i { f2 with deepest :=
                (f2.deepest + f2.ownStack) % M32 }) i = f2.deepest := by
              have hdc : ∀ a ∈ jumpsAt s2 i, ∀ k, findFunctionByAddress s2 a = some k →
                  dAt (s2.set i { f2 with deepest := (f2.deepest + f2.ownStack) % M32 }) k
                    = dAt s2 k := by
                intro a ha k hk
                rw [hj2] at ha
                obtain ⟨_, hkP'⟩ := hCD a ha k hk
                exact houtd k (fun he => hkP' (he ▸ Finset.mem_insert_self i P))
              rw [maxContrib_congr s2 _ i hjouti houtfind hdc]
              exact hmc2
            rw [← h]
            dsimp only
            refine ⟨?_, ?_, ?_, ?_, hiP, ?_⟩
            · intro k hk hkp hkP
              by_cases hki : k = i
              · subst hki
                rw [houtdi, houto k, ho2, hmcout]
                omega
              · have hkP' : k ∉ insert i P := by
                  intro hm
                  rcases Finset.mem_insert.mp hm with he | hm2
                  · exact hki he
                  · exact hkP hm2
                exact hGCout.1 k hk hkp hkP'
            · intro k hk hkp hkP a ha kk hkk
              by_cases hki : k = i
              · subst hki
                rw [hjouti, hj2] at ha
                rw [houtfind a] at hkk
                obtain ⟨hpkk, hkkP'⟩ := hCD a ha kk hkk
                refine ⟨by rw [houtp kk]; exact hpkk, ?_⟩
                exact fun hm => hkkP' (Finset.mem_insert_of_mem hm)
              · have hkP' : k ∉ insert i P := by
                  intro hm
                  rcases Finset.mem_insert.mp hm with he | hm2
                  · exact hki he
                  · exact hkP hm2
                obtain ⟨hpkk, hkkP'⟩ := hGCout.2 k hk hkp hkP' a ha kk hkk
                exact ⟨hpkk, fun hm => hkkP' (Finset.mem_insert_of_mem hm)⟩
            · intro k hk
              have hki : k ≠ i := by
                intro he
                rw [he, houtp i, hg2p] at hk
                exact Bool.noConfusion hk
              have hk2 : pAt s2 k = false := by
                rw [← houtp k]
                exact hk
              rw [dAt_eq_of_get? s2 _ k (houtget k hki)]
              exact hUnm2 k hk2
            · rw [pAt_set_self s2 i _ hi2]
              have hf2p : f2.isProcessed = true := by
                have h0 := hg2p
                unfold pAt at h0
                rw [hg2] at h0
                exact h0
              exact hf2p
            · rw [houtdi]
              exact hdval.symm

theorem goodPass (rank : Nat → Nat) :
    ∀ (is : List Nat) (s : List FnInfo) (log : List Diag) out,
    resolvePassGo is s log = some out →
    totOwn s < M32 → PsiInv s ∅ → ThetaInv s ∅ → UnmZero s →
    GoodInv s ∅ → GoodClosed s ∅ → RankHyp s rank → AllResolve s →
    GoodInv out.1 ∅ ∧ GoodClosed out.1 ∅ ∧ UnmZero out.1 := by
  intro is
  induction is with
  | nil =>
    intro s log out h htot hPsi hTheta hUnm hG hC hRk hAR
    unfold resolvePassGo at h
    rw [Option.some.injEq] at h
    rw [← h]
    exact ⟨hG, hC, hUnm⟩
  | cons i is ih =>
    intro s log out h htot hPsi hTheta hUnm hG hC hRk hAR
    unfold resolvePassGo at h
    cases hres : resolve (s.length + 1) s i with
    | none => rw [hres] at h; exact Option.noConfusion h
    | some r =>
      obtain ⟨s1, d, v⟩ := r
      rw [hres] at h
      dsimp only at h
      have hstep := goodR (s.length + 1) rank s i _ hres ∅
        (fun k hk => absurd hk (Finset.not_mem_empty k)) htot hPsi hTheta hUnm hG hC hRk hAR
        (fun k hk => absurd hk (Finset.not_mem_empty k))
      obtain ⟨hG1, hC1, hUnm1, _, _, _⟩ := hstep
      dsimp only at hG1 hC1 hUnm1
      have hPsiStep := psiR (s.length + 1) s i _ hres ∅
        (fun k hk => absurd hk (Finset.not_mem_empty k)) htot hPsi hTheta
      obtain ⟨hPsi1, hTheta1, _⟩ := hPsiStep
      dsimp only at hPsi1 hTheta1
      have hB := basicR (s.length + 1) s i _ hres
      have htot1 : totOwn s1 = totOwn s :=
        totOwn_congr s s1 hB.1 (fun k => ownAt_of_skelAt s s1 k (hB.2.1 k))
      have hRk1 : RankHyp s1 rank := rankHyp_congr s s1 rank hB.1 hB.2.1 hRk
      have hAR1 : AllResolve s1 := allResolve_congr s s1 hB.1 hB.2.1 hAR
      exact ih s1 (log ++ d) out h (by rw [htot1]; exact htot) hPsi1 hTheta1
        hUnm1 hG1 hC1 hRk1 hAR1

/-- Claim C2, counterexample: the two-record call graph `p` (own frame
`2 ^ 32 - 1`, one call into `q`) and `q` (own frame 2, no calls) is
acyclic — witnessed by the rank function `j ↦ 1 - j` decreasing along its
one resolvable edge — and every edge target resolves, yet after
resolution `p`'s `deepestStackBytes` is `1` while
`ownStackBytes(p) + max over edge targets of deepestStackBytes` is
`(2 ^ 32 - 1) + 2 = 4294967297`: the `uint32_t` addition
`deepest += ownStack` wrapped, so the claimed fixpoint equation fails
without an overflow bound. -/
theorem claim_C2_counterexample :
    (∀ f ∈ [c2OvA, c2OvB], f.isProcessed = false ∧ f.deepest = 0) ∧
    RankHyp [c2OvA, c2OvB] (fun j => 1 - j) ∧
    AllResolve [c2OvA, c2OvB] ∧
    (resolvePass [c2OvA, c2OvB]).map
        (fun x => (dAt x.1 0, ownAt x.1 0 + maxContrib x.1 0)) =
      some (1, 4294967297) ∧
    (1 : Nat) ≠ 4294967297 := by
  refine ⟨by decide, ?_, ?_, by decide, by decide⟩
  · intro j hj
    match j, hj with
    | 0, _ =>
      intro a ha k hk
      have hja : jumpsAt [c2OvA, c2OvB] 0 = [20] := by decide
      rw [hja] at ha
      have ha20 : a = 20 := by simpa using ha
      subst ha20
      have hf : findFunctionByAddress [c2OvA, c2OvB] 20 = some 1 := by decide
      rw [hf, Option.some.injEq] at hk
      rw [← hk]
      decide
    | 1, _ =>
      intro a ha k hk
      have hja : jumpsAt [c2OvA, c2OvB] 1 = [] := by decide
      rw [hja] at ha
      exact absurd ha (List.not_mem_nil a)
    | n + 2, hj2 =>
      simp only [List.length_cons, List.length_nil] at hj2
      omega
  · intro j hj
    match j, hj with
    | 0, _ =>
      intro a ha
      have hja : jumpsAt [c2OvA, c2OvB] 0 = [20] := by decide
      rw [hja] at ha
      have ha20 : a = 20 := by simpa using ha
      subst ha20
      decide
    | 1, _ =>
      intro a ha
      have hja : jumpsAt [c2OvA, c2OvB] 1 = [] := by decide
      rw [hja] at ha
      exact absurd ha (List.not_mem_nil a)
    | n + 2, hj2 =>
      simp only [List.length_cons, List.length_nil] at hj2
      omega

/-- Claim C2 (amended): for every record list as the builder hands it to
the resolution pass (all records unresolved with `deepest = 0`), if the
call graph is acyclic (witnessed by a rank function strictly decreasing
along every resolvable call edge), every call edge resolves to a record,
and — added against the `uint32_t` wrap-around, see the counterexample —
the total own-stack bytes stay below `2 ^ 32`, then the pass completes
and leaves every record `f` with
`deepestStackBytes(f) = ownStackBytes(f) + max over f's call edges of
deepestStackBytes(target)` (the max of the empty edge list being `0`,
so `deepest = ownStack` for a record without edges), with all `ownStack`
fields unchanged; in particular, in the `A`/`B` scenario (frame 16 with
one call into frame-8 `B`), resolution yields `deepest(A) = 24` and
`deepest(B) = 8`. -/
theorem claim_C2_acyclic_fixpoint (s : List FnInfo) (rank : Nat → Nat)
    (hinit : ∀ f ∈ s, f.isProcessed = false ∧ f.deepest = 0)
    (htot : totOwn s < M32)
    (hrank : RankHyp s rank)
    (har : AllResolve s) :
    ∃ s' log, resolvePass s = some (s', log) ∧
      (∀ j, j < s'.length → dAt s' j = ownAt s' j + maxContrib s' j) ∧
      (∀ j, ownAt s' j = ownAt s j) ∧
      (resolvePass [acyclicA, acyclicB]).map
        (fun x => x.1.map FnInfo.deepest) = some [24, 8] := by
  have hdz : ∀ j, dAt s j = 0 := by
    intro j
    unfold dAt
    cases hg : s.get? j with
    | none => rfl
    | some f =>
      have := (hinit f (List.get?_mem hg)).2
      simp [this]
  have hpz : ∀ j, pAt s j = false := by
    intro j
    unfold pAt
    cases hg : s.get? j with
    | none => rfl
    | some f =>
      have := (hinit f (List.get?_mem hg)).1
      simp [this]
  have hPsi : PsiInv s ∅ := by
    intro j
    rw [hdz j]
    simp only [pSum, Finset.sum_empty, Nat.add_zero]
    exact Nat.zero_le _
  have hTheta : ThetaInv s ∅ := by
    intro j _ hp
    rw [hpz j] at hp
    exact Bool.noConfusion hp
  have hUnm : UnmZero s := fun j _ => hdz j
  have hG0 : GoodInv s ∅ := by
    intro j _ hp _
    rw [hpz j] at hp
    exact Bool.noConfusion hp
  have hC0 : GoodClosed s ∅ := by
    intro j _ hp _
    rw [hpz j] at hp
    exact Bool.noConfusion hp
  obtain ⟨s', log, hpass, hP, hmarked⟩ := resolvePass_spec s
  have hfin := goodPass rank (List.range s.length) s [] (s', log) hpass htot hPsi hTheta
    hUnm hG0 hC0 hrank har
  obtain ⟨hGF, _, _⟩ := hfin
  dsimp only at hGF
  refine ⟨s', log, hpass, ?_, ?_, by decide⟩
  · intro j hj
    have hj' : j < s.length := by rw [← hP.1]; exact hj
    exact hGF j hj (hmarked j hj') (Finset.not_mem_empty j)
  · intro j
    exact ownAt_of_skelAt s s' j (hP.2.1 j)

/-- Witness for the amended C2 on the acyclic scenario: `A` (frame 16,
one call into `B`), `B` (frame 8, no calls), ranked by `j ↦ 1 - j`,
satisfies every hypothesis, and the pass leaves each record at the
claimed fixpoint — concretely `deepest(A) = 24`, `deepest(B) = 8`. -/
theorem claim_C2_witness :
    ∃ s' log, resolvePass [acyclicA, acyclicB] = some (s', log) ∧
      (∀ j, j < s'.length → dAt s' j = ownAt s' j + maxContrib s' j) ∧
      (∀ j, ownAt s' j = ownAt [acyclicA, acyclicB] j) ∧
      (resolvePass [acyclicA, acyclicB]).map
        (fun x => x.1.map FnInfo.deepest) = some [24, 8] := by
  refine claim_C2_acyclic_fixpoint [acyclicA, acyclicB] (fun j => 1 - j)
    (by decide) (by decide) ?_ ?_
  · intro j hj
    match j, hj with
    | 0, _ =>
      intro a ha k hk
      have hja : jumpsAt [acyclicA, acyclicB] 0 = [20] := by decide
      rw [hja] at ha
      have ha20 : a = 20 := by simpa using ha
      subst ha20
      have hf : findFunctionByAddress [acyclicA, acyclicB] 20 = some 1 := by decide
      rw [hf, Option.some.injEq] at hk
      rw [← hk]
      decide
    | 1, _ =>
      intro a ha k hk
      have hja : jumpsAt [acyclicA, acyclicB] 1 = [] := by decide
      rw [hja] at ha
      exact absurd ha (List.not_mem_nil a)
    | n + 2, hj2 =>
      simp only [List.length_cons, List.length_nil] at hj2
      omega
  · intro j hj
    match j, hj with
    | 0, _ =>
      intro a ha
      have hja : jumpsAt [acyclicA, acyclicB] 0 = [20] := by decide
      rw [hja] at ha
      have ha20 : a = 20 := by simpa using ha
      subst ha20
      decide
    | 1, _ =>
      intro a ha
      have hja : jumpsAt [acyclicA, acyclicB] 1 = [] := by decide
      rw [hja] at ha
      exact absurd ha (List.not_mem_nil a)
    | n + 2, hj2 =>
      simp only [List.length_cons, List.length_nil] at hj2
      omega
